import Mathlib

/-!
Shallow embedding of the tifftools TIFF container engine
(tifftools/tifftools.py, tifftools/constants.py, tifftools/commands.py)
and proofs about its specification claims.

Conventions used throughout:
* Byte streams are lists of naturals (each intended below 256); file
  positions and lengths are naturals; tag values are integers, matching
  Python arbitrary-precision ints.
* Stateful file objects become explicit state passing.  A writable
  destination is either a real byte buffer or a length tracker, mirroring
  the real file object and the internal WriteTracker class.
* Fallible code returns Except; the Python exception classes
  MustBeBigTiffError and TifftoolsError become explicit error values.
* The writer is modelled with dedup=False (its default); the dedup
  branches of write_ifd and write_tag_data are the only code left out,
  and no claim mentions dedup.
* The chunked read/write loops (1 MiB chunks) of write_tag_data are
  collapsed to single whole-block transfers, which move exactly the same
  bytes.
-/

namespace Tifftools

/-- Model of check_offset (tifftools.py lines 20-36): a read of length
bytes at offset is allowed when the offset is at least 8 (the TIFF header
size), the length is nonnegative, and the end stays inside the file. -/
def check_offset (filelen offset length : Int) : Bool :=
  decide (8 ≤ offset) && decide (0 ≤ length) && decide (offset + length ≤ filelen)

/-- A writable byte buffer with a current position, modelling a seekable
binary file opened for writing.  Writing past the end zero-fills the gap,
as sparse files do. -/
structure Buf where
  data : List Nat
  pos : Nat
deriving DecidableEq

/-- Write bytes at the current position, overwriting existing bytes and
extending the buffer as needed; the position advances past the bytes. -/
def Buf.write (b : Buf) (bs : List Nat) : Buf :=
  let d := b.data ++ List.replicate (b.pos - b.data.length) 0
  { data := d.take b.pos ++ bs ++ d.drop (b.pos + bs.length),
    pos := b.pos + bs.length }

/-- Model of the WriteTracker class (tifftools.py lines 375-394): tracks
only position and length of a simulated output. -/
structure Tracker where
  pos : Nat
  len : Nat
deriving DecidableEq

/-- WriteTracker.write: advance the position, growing the length when the
position moves past it. -/
def Tracker.write (t : Tracker) (n : Nat) : Tracker :=
  { pos := t.pos + n, len := max t.len (t.pos + n) }

/-- A destination handle: either a real buffer or a write tracker. -/
inductive Dst where
  | buf (b : Buf)
  | trk (t : Tracker)
deriving DecidableEq

def Dst.write : Dst → List Nat → Dst
  | .buf b, bs => .buf (b.write bs)
  | .trk t, bs => .trk (t.write bs.length)

def Dst.tell : Dst → Nat
  | .buf b => b.pos
  | .trk t => t.pos

def Dst.len : Dst → Nat
  | .buf b => b.data.length
  | .trk t => t.len

def Dst.seekSet : Dst → Nat → Dst
  | .buf b, n => .buf { b with pos := n }
  | .trk t, n => .trk { t with pos := n }

def Dst.seekEnd : Dst → Dst
  | .buf b => .buf { b with pos := b.data.length }
  | .trk t => .trk { t with pos := t.len }

/-- Error values of the writer.  mustBeBigTiff models MustBeBigTiffError;
otherError models every other exception (TifftoolsError, KeyError,
struct.error), which write_tiff does not catch; fuelExhausted is the
artefact of bounding the recursion depth of the shallow embedding. -/
inductive WErr where
  | mustBeBigTiff
  | otherError
  | fuelExhausted
deriving DecidableEq

/-- Little-endian byte encoding of a natural in a fixed width. -/
def natLE : Nat → Nat → List Nat
  | 0, _ => []
  | w + 1, v => (v % 256) :: natLE w (v / 256)

/-- Model of struct.pack for one integer field of the given byte width:
negative values are encoded in two-complement form and the byte order
follows the byte-order mark. -/
def packVal (bigEndian : Bool) (w : Nat) (v : Int) : List Nat :=
  let le := natLE w (v.emod (2 ^ (8 * w))).toNat
  if bigEndian then le.reverse else le

/-- Model of struct.pack for a repeated format letter: every element of
vals is encoded in width w bytes. -/
def packMany (bigEndian : Bool) (w : Nat) (vals : List Int) : List Nat :=
  (vals.map (packVal bigEndian w)).flatten

/-- Element byte size of each datatype, from the Datatype registry
(constants.py lines 174-190); 0 for ids outside the registry. -/
def dtSize : Nat → Nat
  | 1 => 1 | 2 => 1 | 3 => 2 | 4 => 4 | 5 => 8 | 6 => 1 | 7 => 1 | 8 => 2
  | 9 => 4 | 10 => 8 | 11 => 4 | 12 => 8 | 13 => 4 | 16 => 8 | 17 => 8
  | 18 => 8 | _ => 0

/-- Packing descriptor of each datatype from the registry: the number of
format letters and the byte width of each letter; none for ASCII (2),
UNDEFINED (7) and unregistered ids.  Every registered pack string has
letters of one common width, so a pair suffices. -/
def dtPack : Nat → Option (Nat × Nat)
  | 1 => some (1, 1) | 3 => some (1, 2) | 4 => some (1, 4) | 5 => some (2, 4)
  | 6 => some (1, 1) | 8 => some (1, 2) | 9 => some (1, 4) | 10 => some (2, 4)
  | 11 => some (1, 4) | 12 => some (1, 8) | 13 => some (1, 4)
  | 16 => some (1, 8) | 17 => some (1, 8) | 18 => some (1, 8)
  | _ => none

/-- Membership in the Datatype registry. -/
def dtValid (d : Nat) : Bool :=
  d = 1 || d = 2 || d = 3 || d = 4 || d = 5 || d = 6 || d = 7 || d = 8 ||
  d = 9 || d = 10 || d = 11 || d = 12 || d = 13 || d = 16 || d = 17 || d = 18

/-- Tags of the main Tag set whose registered datatype includes IFD or
IFD8 (constants.py: SubIFD 330, GlobalParametersIFD 400, EXIFIFD 34665,
GPSIFD 34853, InteroperabilityIFD 40965), so TiffTag.isIFD holds. -/
def tagIsIFDReg (t : Nat) : Bool :=
  t = 330 || t = 400 || t = 34665 || t = 34853 || t = 40965

/-- The bytecounts property of offset-bearing tags in the main Tag set:
either the id of the companion byte-count tag, or a literal per-element
byte count (constants.py lines 878-950). -/
def tagBytecounts : Nat → Option (Nat ⊕ Nat)
  | 273 => some (.inl 279)
  | 288 => some (.inl 289)
  | 324 => some (.inl 325)
  | 513 => some (.inl 514)
  | 519 => some (.inr 64)
  | 520 => some (.inr 33)
  | 521 => some (.inr 272)
  | _ => none

/-- TiffTag.isOffsetData: the tag carries a bytecounts property. -/
def tagIsOffsetData (t : Nat) : Bool :=
  (tagBytecounts t).isSome

/-- Tags flagged ndpi_offset in the registry (constants.py lines
1195-1206). -/
def tagNdpiOffset (t : Nat) : Bool :=
  t = 65324 || t = 65325 || t = 65426 || t = 65432

/-- Insertion step of the sort used by write_tag_data: lexicographic
order on (source offset, original index) pairs, matching Python sorted on
2-tuples. -/
def insertOffset (x : Int × Nat) : List (Int × Nat) → List (Int × Nat)
  | [] => [x]
  | y :: ys =>
    if x.1 < y.1 ∨ (x.1 = y.1 ∧ x.2 ≤ y.2) then x :: y :: ys
    else y :: insertOffset x ys

/-- Sort of the (source offset, original index) pairs of write_tag_data
(tifftools.py line 710). -/
def sortOffsets : List (Int × Nat) → List (Int × Nat)
  | [] => []
  | x :: xs => insertOffset x (sortOffsets xs)

/-- Loop state of write_tag_data: the result array, the last copied
(offset, length, index) triple, the pending merged source blocks (most
recent first), and the running destination position. -/
structure WtdState where
  destOffsets : List Int
  lastOffset : Option (Int × Int × Nat)
  blocks : List (Int × Int)
  desttell : Nat

/-- Record a fresh block copy in write_tag_data (lines 724-754): set the
destination offset for this index, remember the triple for repeat
detection, merge the source range into the last block when contiguous,
and advance the running destination position. -/
def wtdCopy (st : WtdState) (offset : Int) (idx : Nat) (length : Int) : WtdState :=
  { destOffsets := st.destOffsets.set idx (st.desttell : Int),
    lastOffset := some (offset, length, idx),
    blocks :=
      match st.blocks with
      | (bo, bl) :: rest =>
        if offset = bo + bl then (bo, bl + length) :: rest
        else (offset, length) :: (bo, bl) :: rest
      | [] => [(offset, length)],
    desttell := st.desttell + length.toNat }

/-- One iteration of the write_tag_data walk over the sorted pairs
(lines 715-755), with dedup disabled: zero or unreadable source pairs are
skipped, an exact repeat of the previous pair reuses its destination
offset, and any other readable pair is copied. -/
def wtdStep (srclen : Int) (lengths : List Int) (st : WtdState) (oi : Int × Nat) : WtdState :=
  if oi.1 ≠ 0 ∧ check_offset srclen oi.1 (lengths.getD oi.2 0) then
    match st.lastOffset with
    | some (lo, ll, li) =>
      if lo = oi.1 ∧ ll = lengths.getD oi.2 0 then
        { st with destOffsets := st.destOffsets.set oi.2 (st.destOffsets.getD li 0) }
      else wtdCopy st oi.1 oi.2 (lengths.getD oi.2 0)
    | none => wtdCopy st oi.1 oi.2 (lengths.getD oi.2 0)
  else st

/-- Model of write_tag_data (tifftools.py lines 685-762) with
dedup=False: copy the referenced source blocks to the destination in
ascending source order and return the destination offsets in original
index order.  Raises TifftoolsError (modelled otherError) exactly when
the offsets and lengths arrays disagree in length. -/
def write_tag_data (dest : Dst) (src : List Nat) (offsets lengths : List Int)
    (srclen : Int) : Except WErr (Dst × List Int) :=
  if offsets.length ≠ lengths.length then .error .otherError
  else
    let init : WtdState :=
      ⟨List.replicate offsets.length 0, none, [], dest.tell⟩
    let offsetList := sortOffsets ((offsets.enum).map (fun p => (p.2, p.1)))
    let fin := offsetList.foldl (wtdStep srclen lengths) init
    let dest := fin.blocks.reverse.foldl
      (fun d (bl : Int × Int) => d.write ((src.drop bl.1.toNat).take bl.2.toNat)) dest
    .ok (dest, fin.destOffsets)

/-- Strip every trailing NUL byte, modelling Python bytes.rstrip with a
NUL argument as used on ASCII payloads (tifftools.py line 254). -/
def rstripNul (l : List Nat) : List Nat :=
  ((l.reverse).dropWhile (fun b => b = 0)).reverse

/-- Classification of a UTF-8 lead byte under the strict codec: none for
an invalid lead (stray continuation, overlong C0 or C1, or above F4);
some none for a single ASCII byte; otherwise the continuation state
(number of further continuation bytes after the next one, the partial
code point, and the allowed range of the next byte, which excludes
overlong encodings after E0 and F0, surrogates after ED and values above
U+10FFFF after F4). -/
def utf8Lead (b : Nat) : Option (Option (Nat × Nat × Nat × Nat)) :=
  if b < 0x80 then some none
  else if b < 0xC2 then none
  else if b ≤ 0xDF then some (some (0, b - 0xC0, 0x80, 0xBF))
  else if b = 0xE0 then some (some (1, 0, 0xA0, 0xBF))
  else if b = 0xED then some (some (1, 0xD, 0x80, 0x9F))
  else if b ≤ 0xEF then some (some (1, b - 0xE0, 0x80, 0xBF))
  else if b = 0xF0 then some (some (2, 0, 0x90, 0xBF))
  else if b = 0xF4 then some (some (2, 4, 0x80, 0x8F))
  else if b ≤ 0xF4 then some (some (2, b - 0xF0, 0x80, 0xBF))
  else none

/-- Byte-at-a-time strict UTF-8 decoder, modelling Python bytes.decode
with the default utf-8 codec and strict error handling.  The first
argument is none between characters and carries the continuation state
inside a multi-byte character; the run rejects truncated sequences,
stray continuation bytes, overlong forms, surrogates and values above
U+10FFFF, exactly as the strict codec does. -/
def utf8Run : Option (Nat × Nat × Nat × Nat) → List Nat → Option (List Nat)
  | none, [] => some []
  | some _, [] => none
  | none, b :: rest =>
    match utf8Lead b with
    | none => none
    | some none => (utf8Run none rest).map (fun cs => b :: cs)
    | some (some st) => utf8Run (some st) rest
  | some (need, cp, lo, hi), c :: rest =>
    if lo ≤ c ∧ c ≤ hi then
      if need = 0 then
        (utf8Run none rest).map (fun cs => (cp * 0x40 + (c - 0x80)) :: cs)
      else utf8Run (some (need - 1, cp * 0x40 + (c - 0x80), 0x80, 0xBF)) rest
    else none

/-- Strict UTF-8 decoding of a byte list into code points. -/
def utf8Decode (l : List Nat) : Option (List Nat) :=
  utf8Run none l

/-- Big-endian decoding of a fixed-width byte group into a natural. -/
def bytesToNat (bigEndian : Bool) (bs : List Nat) : Nat :=
  (if bigEndian then bs else bs.reverse).foldl (fun acc b => acc * 256 + b) 0

/-- Two-complement reinterpretation for signed datatypes. -/
def toSigned (w : Nat) (n : Nat) : Int :=
  if n < 2 ^ (8 * w - 1) then (n : Int) else (n : Int) - 2 ^ (8 * w)

/-- Datatypes whose struct format letters are signed. -/
def dtSigned (d : Nat) : Bool :=
  d = 6 || d = 8 || d = 9 || d = 10 || d = 17

/-- Model of struct.unpack for count integer fields of width w bytes
each, taken in order from the byte list. -/
def unpackSeq (bigEndian signed : Bool) (w : Nat) : Nat → List Nat → List Int
  | 0, _ => []
  | k + 1, bs =>
    let n := bytesToNat bigEndian (bs.take w)
    (if signed then toSigned w n else (n : Int)) :: unpackSeq bigEndian signed w k (bs.drop w)

/-- Decoded payload of a tag: a list of integers for packable datatypes
(floats are carried as their raw bit patterns, which the engine never
interprets), a decoded string for ASCII, or raw bytes. -/
inductive RData where
  | ints (xs : List Int)
  | str (cps : List Nat)
  | raw (bs : List Nat)
deriving DecidableEq

/-- A tag record inside an IFD as built by read_ifd: datatype id, element
count, the in-IFD position of the value slot, the out-of-slot offset when
present, and the payload once resolved (none while unresolved). -/
structure RTagInfo where
  tag : Nat
  datatype : Nat
  count : Nat
  datapos : Nat
  offset : Option Nat
  data : Option RData
deriving DecidableEq

/-- Payload resolution of one tag whose bounds check has passed
(tifftools.py lines 247-262): read count times element-size bytes from
the recorded position and decode them according to the datatype; ASCII
strips every trailing NUL and decodes as UTF-8, keeping the raw bytes
when decoding fails. -/
def resolveTag (bigEndian : Bool) (file : List Nat) (t : RTagInfo) : RTagInfo :=
  let typesize := dtSize t.datatype
  let pos := t.offset.getD t.datapos
  let rawdata := (file.drop pos).take (t.count * typesize)
  let d :=
    match dtPack t.datatype with
    | some pw =>
      RData.ints (unpackSeq bigEndian (dtSigned t.datatype) pw.2 (t.count * pw.1) rawdata)
    | none =>
      if t.datatype = 2 then
        match utf8Decode (rstripNul rawdata) with
        | some cps => RData.str cps
        | none => RData.raw rawdata
      else RData.raw rawdata
  { t with data := some d }

/-- Model of read_ifd_tag_data (tifftools.py lines 230-262) restricted to
payload resolution (the subIFD recursion of lines 263-276 reads child
directories and does not touch the per-tag data fields).  The tags of the
IFD are processed in order; when the bounds check of a tag fails the
Python code returns from the whole function, leaving that tag and every
later tag unresolved. -/
def read_ifd_tag_data (bigEndian : Bool) (size : Nat) (file : List Nat) :
    List RTagInfo → List RTagInfo
  | [] => []
  | t :: rest =>
    let typesize := dtSize t.datatype
    let pos := t.offset.getD t.datapos
    if check_offset (size : Int) (pos : Int) ((t.count * typesize : Nat) : Int) then
      resolveTag bigEndian file t :: read_ifd_tag_data bigEndian size file rest
    else t :: rest

/-- The NDPI offset widening of read_ifd (tifftools.py line 201): a raw
offset below the current IFD offset is widened by the 32-bit wrap rule,
any other offset is kept. -/
def ndpiWiden (ifdOffset data : Nat) : Nat :=
  if data < ifdOffset then ifdOffset - ((ifdOffset - data) &&& 0xFFFFFFFF) else data

/-- The out-of-slot offset stored for one IFD entry by read_ifd
(tifftools.py lines 197-202): none when the value fits the slot;
otherwise the raw offset field, widened by the NDPI rule when the tag set
is present, the tag is flagged ndpi_offset, and the file size is missing
or at least 2 to the 32. -/
def readEntryOffset (bigtiff tagSetPresent : Bool) (size ifdOffset tag datatype count
    data : Nat) : Option Nat :=
  let datalen := if bigtiff then 8 else 4
  if count * dtSize datatype > datalen then
    some
      (if tagSetPresent && tagNdpiOffset tag && (decide (size = 0) || decide (size ≥ 0x100000000))
        then ndpiWiden ifdOffset data else data)
  else none

/-- Position of the first FF DB marker: Python bytes.split with maxsplit
one returns the remainder after the first occurrence, or raises
IndexError (caught by the caller) when the marker is absent. -/
def splitAfterMarker : List Nat → Option (List Nat)
  | [] => none
  | [_] => none
  | a :: b :: rest =>
    if a = 0xFF ∧ b = 0xDB then some rest else splitAfterMarker (b :: rest)

/-- Big-endian 16-bit unpacking of consecutive byte pairs. -/
def unpackBE16 : List Nat → List Nat
  | a :: b :: rest => (a * 256 + b) :: unpackBE16 rest
  | _ => []

/-- Model of EstimateJpegQuality (constants.py lines 801-813).  The first
quantization table after the first FF DB marker is examined when the low
nibble of its precision byte is zero; with Q the 64 decoded table values,
the estimate is 100 - Q58 / 2 when Q58 is below 100 and otherwise
5000 / 2.5 / Q15 = 2000 / Q15, both truncated to an integer; every
parsing failure (missing marker, short data, nonzero low nibble, division
by zero) yields no estimate.  The two divisions are exact in double
precision at these magnitudes, so natural division matches the Python
float arithmetic. -/
def EstimateJpegQuality (jpegTables : List Nat) : Option Nat :=
  match splitAfterMarker jpegTables with
  | none => none
  | some qt0 =>
    match qt0 with
    | l0 :: l1 :: _ =>
      let tablen := l0 * 256 + l1
      let qtables := (qt0.take tablen).drop 2
      match qtables with
      | q0 :: qrest =>
        if (q0 &&& 0xF) = 0 then
          let nbytes := 64 * (if q0 ≠ 0 then 2 else 1)
          let seg := qrest.take nbytes
          if seg.length = nbytes then
            let values := if q0 ≠ 0 then unpackBE16 seg else seg
            match values.get? 58, values.get? 15 with
            | some v58, some v15 =>
              if v58 < 100 then some ((200 - v58) / 2)
              else if v15 = 0 then none
              else some (2000 / v15)
            | _, _ => none
          else none
        else none
      | [] => none
    | _ => none

/-- Model of _adjustTaginfoForNonBigtiff (tifftools.py lines 422-440):
when not writing BigTIFF, LONG8 (16) becomes LONG (4) when every value is
below 2 to the 32, SLONG8 (17) becomes SLONG (9) when every value has
absolute value below 2 to the 31, and otherwise MustBeBigTiffError is
raised; every other datatype passes through unchanged. -/
def adjustTaginfoForNonBigtiff (bigtiff : Bool) (datatype : Nat) (data : List Int) :
    Except WErr Nat :=
  if ¬bigtiff ∧ (datatype = 16 ∨ datatype = 17) then
    if datatype = 16 ∧ data.all (fun x => decide (x < 2 ^ 32)) then .ok 4
    else if datatype = 17 ∧ data.all (fun x => decide (x.natAbs < 2 ^ 31)) then .ok 9
    else .error .mustBeBigTiff
  else .ok datatype

/-- Model of _checkDataForNonBigtiff (tifftools.py lines 443-453): when
not writing BigTIFF, raise MustBeBigTiffError when any value is at least
2 to the 32. -/
def checkDataForNonBigtiff (bigtiff : Bool) (data : List Int) : Except WErr Unit :=
  if ¬bigtiff ∧ data.any (fun x => decide (x ≥ 0x100000000)) then .error .mustBeBigTiff
  else .ok ()

/-- Route taken by tiff_set for its output. -/
inductive WriteRoute where
  | tempCopyBack
  | direct (out : List Nat)
deriving DecidableEq

/-- The path spelled as a single dash, which means stdin or stdout. -/
def dashPath : List Nat := [0x2D]

/-- Model of the output-routing logic of tiff_set (commands.py lines
572-584).  Paths are byte strings; the filesystem is abstracted by the
realpath resolver and the existence test.  A missing output defaults to
the source; an existing output without overwrite raises; when source and
output resolve to the same file and the source is not the dash path, the
transform writes to a temporary file and copies it back over the source,
otherwise the underlying transform writes to the output directly. -/
def tiff_set (realpath : List Nat → List Nat) (fsExists : List Nat → Bool)
    (source : List Nat) (output : Option (List Nat)) (overwrite : Bool) :
    Except Unit WriteRoute :=
  let out := output.getD source
  if fsExists out && !overwrite then .error ()
  else if realpath source = realpath out ∧ source ≠ dashPath then .ok .tempCopyBack
  else .ok (.direct out)

/-- Remove a tag id from a tag mapping, modelling dict.pop. -/
def tagsRemove (tags : List (Nat × RData)) (t : Nat) : List (Nat × RData) :=
  tags.filter (fun p => p.1 ≠ t)

/-- Insert or replace a tag id in a tag mapping, modelling dict item
assignment. -/
def tagsSet (tags : List (Nat × RData)) (t : Nat) (v : RData) : List (Nat × RData) :=
  (t, v) :: tagsRemove tags t

/-- Look a tag id up in a tag mapping. -/
def tagLookup (tags : List (Nat × RData)) (t : Nat) : Option RData :=
  (tags.find? (fun p => p.1 = t)).map (fun p => p.2)

/-- Model of the tag-edit loops of _tiff_set (commands.py lines 508-547)
restricted to one directory: first every unset specifier removes its tag,
then every set specifier whose value parsed inserts its tag (a value of
none models the could-not-determine-data warning path, which skips the
assignment), and finally every setfrom specifier whose source file
contained the tag inserts it (none models the tag-missing warning path).
The projection and gcps pseudo-keys expand into plain set entries before
this loop and are covered by the setlist argument. -/
def tiff_set_tags (tags : List (Nat × RData)) (unset : List Nat)
    (setlist : List (Nat × Option RData)) (setfrom : List (Nat × Option RData)) :
    List (Nat × RData) :=
  let tags1 := unset.foldl (fun ts t => tagsRemove ts t) tags
  let tags2 := setlist.foldl
    (fun ts p => match p.2 with | some v => tagsSet ts p.1 v | none => ts) tags1
  setfrom.foldl
    (fun ts p => match p.2 with | some v => tagsSet ts p.1 v | none => ts) tags2

/-- Tag payload carried by the writer: integer values for packable
datatypes (floats again as raw bit patterns) or raw bytes for ASCII and
UNDEFINED payloads (a decoded ASCII string is carried as its UTF-8
bytes, which is what str.encode produces at write time). -/
inductive TagData where
  | vals (xs : List Int)
  | raw (bs : List Nat)
deriving DecidableEq

def TagData.len : TagData → Nat
  | .vals xs => xs.length
  | .raw bs => bs.length

def TagData.vals? : TagData → Option (List Int)
  | .vals xs => some xs
  | .raw _ => none

def TagData.raw? : TagData → Option (List Nat)
  | .vals _ => none
  | .raw bs => some bs

/-- View of any payload as a list of integers, as Python iteration over a
value list or a bytes object yields integers. -/
def TagData.asInts : TagData → List Int
  | .vals xs => xs
  | .raw bs => bs.map Int.ofNat

mutual
/-- An IFD as consumed by write_ifd: the tag mapping, the length of the
source file the payloads live in, and the bytes of that source file. -/
inductive Ifd where
  | mk (tags : List (Nat × TagEntry)) (size : Nat) (src : List Nat)
/-- A tag record as consumed by write_ifd: datatype id, payload, and the
chains of child IFDs for subIFD-bearing tags (a list of chains, each
chain a list of IFDs). -/
inductive TagEntry where
  | mk (datatype : Nat) (data : TagData) (subifds : List (List Ifd))
end

def Ifd.tags : Ifd → List (Nat × TagEntry)
  | .mk t _ _ => t

def Ifd.size : Ifd → Nat
  | .mk _ s _ => s

def Ifd.src : Ifd → List Nat
  | .mk _ _ s => s

def TagEntry.datatype : TagEntry → Nat
  | .mk d _ _ => d

def TagEntry.data : TagEntry → TagData
  | .mk _ d _ => d

def TagEntry.subifds : TagEntry → List (List Ifd)
  | .mk _ _ s => s

/-- The pair of destination handles used by write_ifd.  In the default
layout the data destination and the IFD destination are one object, so an
aliased representation is needed; in the IFDs-first layout they are
distinct objects. -/
inductive DPair where
  | same (d : Dst)
  | diff (dd : Dst) (ifdd : Dst)

def DPair.ifdSide : DPair → Dst
  | .same d => d
  | .diff _ i => i

def DPair.dataSide : DPair → Dst
  | .same d => d
  | .diff dd _ => dd

def DPair.setIfd : DPair → Dst → DPair
  | .same _, d => .same d
  | .diff dd _, d => .diff dd d

def DPair.setData : DPair → Dst → DPair
  | .same _, d => .same d
  | .diff _ i, d => .diff d i

def DPair.writeI (p : DPair) (bs : List Nat) : DPair :=
  p.setIfd (p.ifdSide.write bs)

def DPair.tellI (p : DPair) : Nat :=
  p.ifdSide.tell

def DPair.tellD (p : DPair) : Nat :=
  p.dataSide.tell

def DPair.seekISet (p : DPair) (n : Nat) : DPair :=
  p.setIfd (p.ifdSide.seekSet n)

def DPair.seekIEnd (p : DPair) : DPair :=
  p.setIfd p.ifdSide.seekEnd

/-- One entry of the deferredData dictionary of write_ifd: the tag id,
the working value array, the pending write_tag_data arguments (source
offsets and byte counts) for the offsets tag, the datatype under which
the values will be packed (captured when the patch location is recorded,
matching the datatype the Python code reads back at patch time), and the
recorded patch location, either inside the directory record or at an
absolute destination offset. -/
structure Deferred where
  tag : Nat
  data : List Int
  wr : Option (List Int × List Int)
  dt : Option Nat
  ifdoffset : Option Nat
  offset : Option Nat

def defFind (l : List (Nat × Deferred)) (k : Nat) : Option Deferred :=
  (l.find? (fun p => p.1 = k)).map (fun p => p.2)

def defUpdate (l : List (Nat × Deferred)) (k : Nat) (f : Deferred → Deferred) :
    List (Nat × Deferred) :=
  l.map (fun p => if p.1 = k then (p.1, f p.2) else p)

def tagsFind (tags : List (Nat × TagEntry)) (k : Nat) : Option TagEntry :=
  (tags.find? (fun p => p.1 = k)).map (fun p => p.2)

/-- Insertion step of the ascending sort of the tag items of an IFD,
matching Python sorted over the dictionary items. -/
def insertTag (x : Nat × TagEntry) : List (Nat × TagEntry) → List (Nat × TagEntry)
  | [] => [x]
  | y :: ys => if x.1 ≤ y.1 then x :: y :: ys else y :: insertTag x ys

def sortTags : List (Nat × TagEntry) → List (Nat × TagEntry)
  | [] => []
  | x :: xs => insertTag x (sortTags xs)

def orErr {α : Type} : Option α → Except WErr α
  | some a => .ok a
  | none => .error .otherError

/-- State threaded through the tag loop of write_ifd: the destination
pair, the directory record built so far, the subifd patch locations
(negative means relative to the record start), and the deferred-data
entries in insertion order. -/
structure TLState where
  dp : DPair
  ifdrecord : List Nat
  subifdPtrs : List (Nat × Int)
  deferred : List (Nat × Deferred)

/-- The value packing of one tag record (tifftools.py lines 578-587):
registered datatypes pack the working values, ASCII appends a NUL to the
raw payload, anything else keeps the raw payload of the tag. -/
def pkOf (be : Bool) (tinfo : TagEntry) (count0 : Nat) (data1 : TagData) (dt2 : Nat) :
    Except WErr (List Nat × Nat) :=
  match dtPack dt2 with
  | some pw =>
    if pw.1 * (data1.len / pw.1) ≠ data1.len then Except.error .otherError
    else Except.ok (packMany be pw.2 data1.asInts, data1.len / pw.1)
  | none =>
    if dt2 = 2 then
      match data1.raw? with
      | some bs => Except.ok (bs ++ [0], bs.length + 1)
      | none => Except.error .otherError
    else
      match tinfo.data.raw? with
      | some bs => Except.ok (bs, count0)
      | none => Except.error .otherError

/-- The tag-record emission (tifftools.py lines 588-619): inline when the
packed value fits the slot, otherwise out of line at a word-aligned
position; subifd and deferred patch locations are recorded. -/
def slotEmit (be bigtiff : Bool) (st : TLState) (tag : Nat) (isIfdTag : Bool)
    (ptrlen : Nat) (dp1 : DPair) (deferred1 : List (Nat × Deferred)) (dt2 : Nat)
    (pk : List Nat × Nat) : Except WErr TLState :=
  let databytes := pk.1
  let count2 := pk.2
  let tagrecord0 := packVal be 2 (tag : Int) ++ packVal be 2 (dt2 : Int) ++
    packVal be ptrlen (count2 : Int)
  if databytes.length ≤ ptrlen then
    let slotoff := st.ifdrecord.length + tagrecord0.length
    let subifdPtrs2 :=
      if isIfdTag then st.subifdPtrs ++ [(tag, -(slotoff : Int))] else st.subifdPtrs
    let deferred2 :=
      if (defFind deferred1 tag).isSome then
        defUpdate deferred1 tag (fun d => { d with ifdoffset := some slotoff, dt := some dt2 })
      else deferred1
    let tagrecord := tagrecord0 ++ databytes ++ List.replicate (ptrlen - databytes.length) 0
    Except.ok ⟨dp1, st.ifdrecord ++ tagrecord, subifdPtrs2, deferred2⟩
  else do
    let dp2 := if dp1.tellI % 2 = 1 then dp1.writeI [0] else dp1
    let tpos := dp2.tellI
    let subifdPtrs2 :=
      if isIfdTag then st.subifdPtrs ++ [(tag, (tpos : Int))] else st.subifdPtrs
    let _ ← checkDataForNonBigtiff bigtiff [(tpos : Int)]
    let tagrecord := tagrecord0 ++ packVal be ptrlen (tpos : Int)
    let deferred2 :=
      if (defFind deferred1 tag).isSome then
        defUpdate deferred1 tag (fun d => { d with offset := some tpos, dt := some dt2 })
      else deferred1
    let dp3 := dp2.writeI databytes
    Except.ok ⟨dp3, st.ifdrecord ++ tagrecord, subifdPtrs2, deferred2⟩

/-- The tail of one tag-loop iteration of write_ifd, from the datatype
adjustment for non-BigTIFF (tifftools.py line 577) to the emission of the
tag record: shared by the three offset-handling branches of processTag.
dp1, data1, dt1v and deferred1 are the destination pair, working value
array, datatype and deferred entries produced by the offset handling. -/
def processTagTail (be bigtiff : Bool) (tags : List (Nat × TagEntry)) (st : TLState)
    (tag : Nat) (tinfo : TagEntry) (isIfdTag : Bool) (count0 ptrlen : Nat)
    (dp1 : DPair) (data1 : TagData) (dt1v : Nat) (deferred1 : List (Nat × Deferred)) :
    Except WErr TLState := do
  let dt2 ← adjustTaginfoForNonBigtiff bigtiff dt1v tinfo.data.asInts
  let pk ← pkOf be tinfo count0 data1 dt2
  slotEmit be bigtiff st tag isIfdTag ptrlen dp1 deferred1 dt2 pk

/-- One iteration of the tag loop of write_ifd (tifftools.py lines
536-619), with dedup disabled.  SubIFD-bearing tags get a zero
placeholder value per chain and the pointer datatype of the layout;
offset-bearing tags get the LONG or LONG8 datatype and either copy their
payload blocks now (default layout, or literal byte counts) or register
deferred-data entries (IFDs-first layout with a companion byte-count
tag); the datatype is downgraded for non-BigTIFF when possible; the value
is packed and stored inline in the entry slot when it fits, otherwise it
is written out of line at a word-aligned position whose offset fills the
slot.  Python exceptions other than MustBeBigTiffError (KeyError on a
missing companion tag or datatype, struct and type errors on
malformed payloads) become otherError.  The tag record is read through
the mapping lookup, which is what the Python loop variable is for a
dictionary-backed tag mapping. -/
def processTag (be bigtiff ifdsFirst : Bool) (src : List Nat) (size : Nat)
    (tags : List (Nat × TagEntry)) (st : TLState) (tag : Nat) :
    Except WErr TLState := do
  let ptrlen := if bigtiff then 8 else 4
  let tinfo ← orErr (tagsFind tags tag)
  if dtValid tinfo.datatype = false then Except.error .otherError else do
  let isIfdTag := tagIsIFDReg tag || tinfo.datatype = 13 || tinfo.datatype = 18
  let data0 : TagData :=
    if isIfdTag then .vals (List.replicate tinfo.subifds.length 0) else tinfo.data
  let dt0 : Nat := if isIfdTag then (if bigtiff then 18 else 13) else tinfo.datatype
  let count0 := data0.len
  let ofs ←
    match tagBytecounts tag with
    | none => Except.ok (st.dp, data0, dt0, st.deferred)
    | some bcspec => do
      let dt1 := if bigtiff then 16 else 4
      let offsets ← orErr data0.vals?
      match bcspec with
      | .inl partner => do
        let bcEntry ← orErr (tagsFind tags partner)
        let bcData ← orErr bcEntry.data.vals?
        if ifdsFirst then do
          let def1 := st.deferred ++
            [(partner, ⟨partner, bcData, none, none, none, none⟩),
              (tag, ⟨tag, offsets, some (offsets, bcData), none, none, none⟩)]
          let _ ← checkDataForNonBigtiff bigtiff offsets
          Except.ok (st.dp, TagData.vals offsets, dt1, def1)
        else do
          let r ← write_tag_data st.dp.ifdSide src offsets bcData (size : Int)
          let _ ← checkDataForNonBigtiff bigtiff r.2
          Except.ok (st.dp.setIfd r.1, TagData.vals r.2, dt1, st.deferred)
      | .inr lit => do
        let r ← write_tag_data st.dp.ifdSide src offsets
          (List.replicate count0 (lit : Int)) (size : Int)
        let _ ← checkDataForNonBigtiff bigtiff r.2
        Except.ok (st.dp.setIfd r.1, TagData.vals r.2, dt1, st.deferred)
  processTagTail be bigtiff tags st tag tinfo isIfdTag count0 ptrlen
    ofs.1 ofs.2.1 ofs.2.2.1 ofs.2.2.2

/-- The tag loop of write_ifd over the id-sorted tag items. -/
def processTags (be bigtiff ifdsFirst : Bool) (src : List Nat) (size : Nat)
    (tags : List (Nat × TagEntry)) :
    List (Nat × TagEntry) → TLState → Except WErr TLState
  | [], st => .ok st
  | e :: rest, st => do
    let st2 ← processTag be bigtiff ifdsFirst src size tags st e.1
    processTags be bigtiff ifdsFirst src size tags rest st2

/-- First loop of _writeDeferredData (tifftools.py lines 478-480): run
the pending write_tag_data calls against the data destination, replacing
the working value array of each offsets entry with the returned
destination offsets. -/
def runDeferredWrites (src : List Nat) (size : Nat) (dp : DPair) :
    List (Nat × Deferred) → Except WErr (DPair × List (Nat × Deferred))
  | [] => .ok (dp, [])
  | (k, d) :: rest =>
    match d.wr with
    | some ow => do
      let r ← write_tag_data dp.dataSide src ow.1 ow.2 (size : Int)
      let rec2 ← runDeferredWrites src size (dp.setData r.1) rest
      .ok (rec2.1, (k, { d with data := r.2 }) :: rec2.2)
    | none => do
      let rec2 ← runDeferredWrites src size dp rest
      .ok (rec2.1, (k, d) :: rec2.2)

/-- Second loop of _writeDeferredData (tifftools.py lines 481-497): check
the values for non-BigTIFF, pack them under the recorded datatype, and
patch them either into the directory record or at the recorded
destination offset, restoring the position afterwards. -/
def patchDeferred (be bigtiff : Bool) (dp : DPair) (ifdrecord : List Nat) :
    List (Nat × Deferred) → Except WErr (DPair × List Nat)
  | [] => .ok (dp, ifdrecord)
  | (_, d) :: rest => do
    let _ ← checkDataForNonBigtiff bigtiff d.data
    let dt ← orErr d.dt
    let pw ← orErr (dtPack dt)
    let count := d.data.length / pw.1
    if pw.1 * count ≠ d.data.length then Except.error .otherError
    else
      let bytes := packMany be pw.2 d.data
      match d.ifdoffset with
      | some io =>
        patchDeferred be bigtiff dp
          (ifdrecord.take io ++ bytes ++ ifdrecord.drop (io + bytes.length)) rest
      | none =>
        match d.offset with
        | some o =>
          let opos := dp.tellI
          let dp2 := (((dp.seekISet o).writeI bytes).seekISet opos)
          patchDeferred be bigtiff dp2 ifdrecord rest
        | none => Except.error .otherError

/-- The subifd chain loop of write_sub_ifds: write the IFDs of one chain,
threading the pointer patch location from one to the next. -/
def writeChain (w : DPair → Ifd → Nat → Except WErr (DPair × Nat × List Nat)) :
    List Ifd → DPair → Nat → Except WErr (DPair × Nat × List Nat)
  | [], dp, p => .ok (dp, p, [])
  | i :: rest, dp, p => do
    let r ← w dp i p
    let r2 ← writeChain w rest r.1 r.2.1
    .ok (r2.1, r2.2.1, r.2.2 ++ r2.2.2)

/-- The loop of write_sub_ifds over the chains of one subifd tag: each
chain starts one slot further into the placeholder value. -/
def writeChains (w : DPair → Ifd → Nat → Except WErr (DPair × Nat × List Nat))
    (tagdatalen : Nat) :
    List (List Ifd) → DPair → Nat → Except WErr (DPair × List Nat)
  | [], dp, _ => .ok (dp, [])
  | c :: rest, dp, p => do
    let r ← writeChain w c dp p
    let r2 ← writeChains w tagdatalen rest r.1 (p + tagdatalen)
    .ok (r2.1, r.2.2 ++ r2.2)

/-- Model of write_sub_ifds (tifftools.py lines 640-682): for every
recorded subifd patch location (resolved against the parent position when
negative), write the chains of child IFDs of that tag. -/
def writeSubTags (w : DPair → Ifd → Nat → Except WErr (DPair × Nat × List Nat))
    (tagdatalen : Nat) (tags : List (Nat × TagEntry)) (parentPos : Nat) :
    List (Nat × Int) → DPair → Except WErr (DPair × List Nat)
  | [], dp => .ok (dp, [])
  | (tag, sp) :: rest, dp => do
    let p : Nat := if sp < 0 then parentPos + (-sp).toNat else sp.toNat
    let entry ← orErr (tagsFind tags tag)
    let r ← writeChains w tagdatalen entry.subifds dp p
    let r2 ← writeSubTags w tagdatalen tags parentPos rest r.1
    .ok (r2.1, r.2 ++ r2.2)

/-- Model of write_ifd (tifftools.py lines 500-637) with dedup disabled,
bounded by fuel on the subIFD recursion depth.  Returns the new
destination pair, the patch location for the next IFD pointer, and the
list of positions at which directory records were placed on the IFD
destination (this IFD first, then recursively its subIFDs). -/
def write_ifd (be bigtiff ifdsFirst : Bool) :
    Nat → DPair → Ifd → Nat → Except WErr (DPair × Nat × List Nat)
  | 0, _, _, _ => .error .fuelExhausted
  | fuel + 1, dp, ifd, ifdPtr => do
    let ptrlen := if bigtiff then 8 else 4
    let ifdrecord0 := packVal be (if bigtiff then 8 else 2) (ifd.tags.length : Int)
    let ifdpos := dp.tellI
    let dp := if ifdsFirst then
        dp.writeI (List.replicate
          (ifdrecord0.length + (if bigtiff then 20 else 12) * ifd.tags.length + ptrlen) 0)
      else dp
    let st ← processTags be bigtiff ifdsFirst ifd.src ifd.size ifd.tags
      (sortTags ifd.tags) ⟨dp, ifdrecord0, [], []⟩
    let rdw ← runDeferredWrites ifd.src ifd.size st.dp st.deferred
    let pd ← patchDeferred be bigtiff rdw.1 st.ifdrecord rdw.2
    let dp := pd.1
    let ifdrecord := pd.2
    let _ ← checkDataForNonBigtiff bigtiff [(dp.tellI : Int), (dp.tellD : Int)]
    let dp := if dp.tellI % 2 = 1 then dp.writeI [0] else dp
    let pos := dp.tellI
    let recorded := if ifdsFirst then ifdpos else pos
    let dp := ((dp.seekISet ifdPtr).writeI (packVal be ptrlen (recorded : Int)))
    let dp := if ifdsFirst then dp.seekISet ifdpos else dp.seekIEnd
    let dp := dp.writeI ifdrecord
    let nextifdPtr := dp.tellI
    let dp := dp.writeI (packVal be ptrlen 0)
    let dp := dp.seekIEnd
    let r ← writeSubTags (fun a b c => write_ifd be bigtiff ifdsFirst fuel a b c)
      ptrlen ifd.tags recorded st.subifdPtrs dp
    .ok (r.1, nextifdPtr, recorded :: r.2)

/-- The per-pass loop of write_tiff over the top-level IFDs, threading
the next-IFD patch location. -/
def writeIfdLoop (w : DPair → Ifd → Nat → Except WErr (DPair × Nat × List Nat)) :
    List Ifd → DPair → Nat → Except WErr (DPair × List Nat)
  | [], dp, _ => .ok (dp, [])
  | i :: rest, dp, ptr => do
    let r ← w dp i ptr
    let r2 ← writeIfdLoop w rest r.1 r.2.1
    .ok (r2.1, r.2.2 ++ r2.2)

/-- The TIFF header emitted by write_tiff (lines 331-338). -/
def tiffHeader (be bigtiff : Bool) : List Nat :=
  (if be then [0x4D, 0x4D] else [0x49, 0x49]) ++
    (if bigtiff then
      packVal be 2 0x2B ++ packVal be 2 8 ++ packVal be 2 0 ++ packVal be 8 0
    else packVal be 2 0x2A ++ packVal be 4 0)

/-- Result of one serialization attempt: the produced file bytes and the
positions of every directory record in it. -/
structure WOut where
  file : List Nat
  positions : List Nat
deriving DecidableEq

/-- One serialization attempt of write_tiff (lines 330-352) on a fresh
destination: emit the header, then run the destination passes of
_ifdsPass (lines 397-419).  The default layout is a single pass with one
aliased destination; the IFDs-first layout runs a sizing pass on
trackers, a pass that writes records and tag values to the real
destination while a tracker simulates the trailing data area, and a final
pass that appends the deferred payload data to the real destination.  The
directory-record positions are those of the pass whose IFD destination is
the real buffer. -/
def write_tiff_once (be bigtiff ifdsFirst : Bool) (fuel : Nat) (ifds : List Ifd) :
    Except WErr WOut := do
  let header := tiffHeader be bigtiff
  let dest0 : Buf := Buf.write ⟨[], 0⟩ header
  let ifdPtr0 := header.length - (if bigtiff then 8 else 4)
  if ifdsFirst = false then do
    let r ← writeIfdLoop (fun a b c => write_ifd be bigtiff false fuel a b c) ifds
      (.same (.buf dest0)) ifdPtr0
    match r.1.ifdSide with
    | .buf b => .ok ⟨b.data, r.2⟩
    | .trk _ => .error .otherError
  else do
    let r1 ← writeIfdLoop (fun a b c => write_ifd be bigtiff true fuel a b c) ifds
      (.diff (.trk ⟨dest0.pos, dest0.pos⟩) (.trk ⟨0, 0⟩)) ifdPtr0
    let start2 := dest0.pos + r1.1.ifdSide.tell
    let r2 ← writeIfdLoop (fun a b c => write_ifd be bigtiff true fuel a b c) ifds
      (.diff (.trk ⟨start2, start2⟩) (.buf dest0)) ifdPtr0
    let r3 ← writeIfdLoop (fun a b c => write_ifd be bigtiff true fuel a b c) ifds
      (.diff r2.1.ifdSide (.trk ⟨0, 0⟩)) ifdPtr0
    match r3.1.dataSide with
    | .buf b => .ok ⟨b.data, r2.2⟩
    | .trk _ => .error .otherError

/-- Model of write_tiff (tifftools.py lines 279-372) for a stream
destination: attempt the serialization with the requested format; when it
raises MustBeBigTiffError the destination is truncated to empty and the
whole write reruns with bigtiff forced on (the Python code does this by
catching the error and calling write_tiff recursively; the retry never
raises MustBeBigTiffError again, so the recursion unfolds exactly once,
which this definition inlines). -/
def write_tiff (be bigtiff ifdsFirst : Bool) (fuel : Nat) (ifds : List Ifd) :
    Except WErr WOut :=
  match write_tiff_once be bigtiff ifdsFirst fuel ifds with
  | .error .mustBeBigTiff => write_tiff_once be true ifdsFirst fuel ifds
  | r => r

/-- Whether a writer result is the MustBeBigTiffError outcome. -/
def isMBBT {α : Type} : Except WErr α → Bool
  | .error .mustBeBigTiff => true
  | _ => false

/-- A destination is at its end: the position equals the length. -/
def Dst.atEnd (d : Dst) : Prop :=
  d.tell = d.len

/-- The bounds check read_ifd_tag_data applies to one tag (tifftools.py
line 241): recorded position and count times element size against the
file size. -/
def tagBoundsOk (size : Nat) (t : RTagInfo) : Bool :=
  check_offset (size : Int) ((t.offset.getD t.datapos : Nat) : Int)
    ((t.count * dtSize t.datatype : Nat) : Int)

/-- Modelled from the claim wording of C4 for comparison with the code:
strip one single trailing NUL byte (the code strips all of them). -/
def stripSingleNul (l : List Nat) : List Nat :=
  if l.getLast? = some 0 then l.dropLast else l

/-- Whether the FF DB marker occurs anywhere in the byte list. -/
def hasMarker : List Nat → Bool
  | a :: b :: rest => (decide (a = 0xFF) && decide (b = 0xDB)) || hasMarker (b :: rest)
  | _ => false

/-- The parse result attached to the last occurrence of a tag id in a
setlist. -/
def lastParsed (l : List (Nat × Option RData)) (t : Nat) : Option (Option RData) :=
  (l.reverse.find? (fun p => p.1 = t)).map (fun p => p.2)

/-- Example JPEGTables payload: an eight-bit quantization table whose
entry 15 is 100 and whose entry 58 is 50, after a two byte junk prelude. -/
def jpegTablesEx : List Nat :=
  [1, 2, 0xFF, 0xDB, 0, 67, 0] ++
    (List.range 64).map (fun i => if i = 15 then 100 else if i = 58 then 50 else 10)

/-- Example source file for the reader counterexamples: twenty bytes. -/
def fileEx : List Nat :=
  List.range 20

/-- Example tag whose bounds check fails: sixteen bytes wanted at offset
one hundred of a twenty byte file. -/
def tagFailEx : RTagInfo :=
  ⟨273, 4, 4, 10, some 100, none⟩

/-- Example tag whose bounds check passes: two inline bytes at position
ten. -/
def tagOkEx : RTagInfo :=
  ⟨256, 3, 1, 10, none, none⟩

/-- Example ASCII tag of count three at position eight. -/
def tagAsciiEx : RTagInfo :=
  ⟨270, 2, 3, 8, none, none⟩

/-- Example file for the ASCII counterexample: a letter and two trailing
NUL bytes at position eight. -/
def fileAsciiEx : List Nat :=
  List.replicate 8 0 ++ [97, 0, 0]

/-- Example IFD with a single LONG8 tag whose value needs 64 bits, which
a classic serialization cannot hold. -/
def ifdLong8Ex : Ifd :=
  .mk [(256, .mk 16 (.vals [4294967296]) [])] 0 []

/-- Example IFD with a single inline SHORT tag. -/
def ifdShortEx : Ifd :=
  .mk [(256, .mk 3 (.vals [100]) [])] 0 []

/-- The destination pair uses two distinct handles, as the IFDs-first
layout does. -/
def DPair.isDiff : DPair → Prop
  | .same _ => False
  | .diff _ _ => True

/-- Well-formedness of an IFD tree to the given depth: the tag mappings
are dictionary-backed, so ids are unique at every level. -/
def WFb : Nat → Ifd → Bool
  | 0, _ => true
  | fuel + 1, ifd =>
    decide (ifd.tags.map Prod.fst).Nodup &&
      ifd.tags.all (fun e => e.2.subifds.all (fun c => c.all (fun i => WFb fuel i)))

/-- A subifd patch location is word-aligned whichever way it is read:
relative (negative) or absolute. -/
def ptrEven (sp : Int) : Prop :=
  sp.toNat % 2 = 0 ∧ (-sp).toNat % 2 = 0

/-- Invariant of one deferred-data entry against the current IFD
destination length and directory record length: the pending
write_tag_data offsets match the working values in number, the working
values match the tag mapping in number for non-IFD tags, and any recorded
patch location is word-aligned and either fits the recorded region or has
an even patch width. -/
def DefEnt (tags : List (Nat × TagEntry)) (L reclen : Nat) (e : Nat × Deferred) : Prop :=
  (∀ ow, e.2.wr = some ow → ow.1.length = e.2.data.length) ∧
  (∀ tinfo, tagsFind tags e.1 = some tinfo →
    (tagIsIFDReg e.1 || decide (tinfo.datatype = 13) || decide (tinfo.datatype = 18)) = false →
    e.2.data.length = tinfo.data.len) ∧
  (∀ dt, e.2.dt = some dt → ∀ pw, dtPack dt = some pw →
    (∀ io, e.2.ifdoffset = some io →
      io % 2 = 0 ∧ (io + e.2.data.length * pw.2 ≤ reclen ∨ (e.2.data.length * pw.2) % 2 = 0)) ∧
    (∀ o, e.2.offset = some o →
      o % 2 = 0 ∧ (o + e.2.data.length * pw.2 ≤ L ∨ (e.2.data.length * pw.2) % 2 = 0)))

/-- A deferred entry that has not been patched into a location yet. -/
def DefFresh (d : Deferred) : Prop :=
  d.dt = none ∧ d.ifdoffset = none ∧ d.offset = none

/-- Invariant of the write_ifd tag-loop state in the IFDs-first layout:
distinct handles, the IFD destination is positioned at its end, the
directory record built so far has even length, every subifd patch
location is word-aligned, and every deferred entry is sound. -/
def TLOK (tags : List (Nat × TagEntry)) (st : TLState) : Prop :=
  st.dp.isDiff ∧
  st.dp.ifdSide.tell = st.dp.ifdSide.len ∧
  st.ifdrecord.length % 2 = 0 ∧
  (∀ e ∈ st.subifdPtrs, ptrEven e.2) ∧
  (∀ e ∈ st.deferred, DefEnt tags st.dp.ifdSide.len st.ifdrecord.length e)

/-- Invariant of the IFD destination between directory writes in the
IFDs-first layout: distinct handles, positioned at its end, length
word-aligned. -/
def IOk (dp : DPair) : Prop :=
  dp.isDiff ∧ dp.ifdSide.tell = dp.ifdSide.len ∧ dp.ifdSide.len % 2 = 0

/-- Specification of a directory writer as used by the subifd and
top-level loops: on well-formed input and an aligned destination it
returns an aligned destination, an aligned next pointer location, and
word-aligned directory positions. -/
def WSpec (wf : Ifd → Prop) (w : DPair → Ifd → Nat → Except WErr (DPair × Nat × List Nat)) :
    Prop :=
  ∀ dp ifd ptr r, w dp ifd ptr = .ok r → wf ifd → IOk dp → ptr % 2 = 0 →
    IOk r.1 ∧ r.2.1 % 2 = 0 ∧ (∀ p ∈ r.2.2, p % 2 = 0)

/-! Basic lemmas about destinations and packing. -/

theorem Buf.length_write (b : Buf) (bs : List Nat) :
    (b.write bs).data.length = max b.data.length (b.pos + bs.length) := by
  simp only [Buf.write, List.length_append, List.length_take, List.length_drop,
    List.length_replicate]
  omega

theorem Dst.tell_write (d : Dst) (bs : List Nat) :
    (d.write bs).tell = d.tell + bs.length := by
  cases d <;> simp [Dst.write, Dst.tell, Buf.write, Tracker.write]

theorem Dst.len_write (d : Dst) (bs : List Nat) :
    (d.write bs).len = max d.len (d.tell + bs.length) := by
  cases d <;> simp [Dst.write, Dst.tell, Dst.len, Buf.length_write, Tracker.write]

theorem Dst.tell_seekSet (d : Dst) (n : Nat) : (d.seekSet n).tell = n := by
  cases d <;> simp [Dst.seekSet, Dst.tell]

theorem Dst.len_seekSet (d : Dst) (n : Nat) : (d.seekSet n).len = d.len := by
  cases d <;> simp [Dst.seekSet, Dst.len]

theorem Dst.tell_seekEnd (d : Dst) : d.seekEnd.tell = d.len := by
  cases d <;> simp [Dst.seekEnd, Dst.tell, Dst.len]

theorem Dst.len_seekEnd (d : Dst) : d.seekEnd.len = d.len := by
  cases d <;> simp [Dst.seekEnd, Dst.len]

theorem Dst.atEnd_write (d : Dst) (bs : List Nat) (h : d.atEnd) :
    (d.write bs).atEnd ∧ (d.write bs).len = d.len + bs.length := by
  unfold Dst.atEnd at *
  rw [Dst.tell_write, Dst.len_write, h]
  omega

theorem Dst.atEnd_seekEnd (d : Dst) : d.seekEnd.atEnd := by
  unfold Dst.atEnd
  rw [Dst.tell_seekEnd, Dst.len_seekEnd]

theorem natLE_length (w v : Nat) : (natLE w v).length = w := by
  induction w generalizing v with
  | zero => rfl
  | succ k ih => simp [natLE, ih]

theorem packVal_length (be : Bool) (w : Nat) (v : Int) : (packVal be w v).length = w := by
  unfold packVal
  split <;> simp [natLE_length]

theorem packMany_length (be : Bool) (w : Nat) (vals : List Int) :
    (packMany be w vals).length = vals.length * w := by
  induction vals with
  | nil => simp [packMany]
  | cons v vs ih =>
    simp [packMany] at ih ⊢
    rw [packVal_length, ih]
    ring

/-! Lemmas about the write_tag_data walk. -/

theorem insertOffset_mem (x y : Int × Nat) (l : List (Int × Nat))
    (h : x ∈ insertOffset y l) : x = y ∨ x ∈ l := by
  induction l with
  | nil =>
    simp [insertOffset] at h
    exact Or.inl h
  | cons a as ih =>
    simp only [insertOffset] at h
    by_cases hc : y.1 < a.1 ∨ (y.1 = a.1 ∧ y.2 ≤ a.2)
    · rw [if_pos hc] at h
      rcases List.mem_cons.mp h with h2 | h2
      · exact Or.inl h2
      · exact Or.inr h2
    · rw [if_neg hc] at h
      rcases List.mem_cons.mp h with h2 | h2
      · exact Or.inr (by simp [h2])
      · rcases ih h2 with h3 | h3
        · exact Or.inl h3
        · exact Or.inr (by simp [h3])

theorem sortOffsets_mem (x : Int × Nat) (l : List (Int × Nat))
    (h : x ∈ sortOffsets l) : x ∈ l := by
  induction l with
  | nil => simp [sortOffsets] at h
  | cons a as ih =>
    unfold sortOffsets at h
    rcases insertOffset_mem x a (sortOffsets as) h with h2 | h2
    · simp [h2]
    · simp [ih h2]

theorem enumSwap_mem (offsets : List Int) (x : Int × Nat)
    (h : x ∈ (offsets.enum).map (fun p => (p.2, p.1))) :
    offsets[x.2]? = some x.1 := by
  simp only [List.mem_map] at h
  obtain ⟨p, hp, hx⟩ := h
  have := List.mem_enum_iff_getElem?.mp hp
  subst hx
  exact this

theorem wtdCopy_destOffsets (st : WtdState) (offset : Int) (idx : Nat) (length : Int) :
    (wtdCopy st offset idx length).destOffsets =
      st.destOffsets.set idx (st.desttell : Int) := rfl

theorem wtdStep_destOffsets_length (srclen : Int) (lengths : List Int)
    (st : WtdState) (x : Int × Nat) :
    ((wtdStep srclen lengths st x).destOffsets).length = st.destOffsets.length := by
  cases h : st.lastOffset with
  | some t =>
    obtain ⟨lo, ll, li⟩ := t
    by_cases hg : x.1 ≠ 0 ∧ check_offset srclen x.1 (lengths.getD x.2 0) = true
    · by_cases hr : lo = x.1 ∧ ll = lengths.getD x.2 0
      · simp only [wtdStep, h, if_pos hg, if_pos hr, List.length_set]
      · simp only [wtdStep, h, if_pos hg, if_neg hr, wtdCopy_destOffsets, List.length_set]
    · simp only [wtdStep, h, if_neg hg]
  | none =>
    by_cases hg : x.1 ≠ 0 ∧ check_offset srclen x.1 (lengths.getD x.2 0) = true
    · simp only [wtdStep, h, if_pos hg, wtdCopy_destOffsets, List.length_set]
    · simp only [wtdStep, h, if_neg hg]

theorem wtd_fold_len (srclen : Int) (lengths : List Int) (l : List (Int × Nat))
    (st : WtdState) :
    ((l.foldl (wtdStep srclen lengths) st).destOffsets).length = st.destOffsets.length := by
  induction l generalizing st with
  | nil => rfl
  | cons x xs ih => rw [List.foldl_cons, ih, wtdStep_destOffsets_length]

theorem wtdStep_bad_zero (srclen : Int) (offsets lengths : List Int)
    (st : WtdState) (x : Int × Nat) (hx : offsets[x.2]? = some x.1)
    (hinv : ∀ i, (offsets.getD i 0 = 0 ∨
      check_offset srclen (offsets.getD i 0) (lengths.getD i 0) = false) →
      st.destOffsets.getD i 0 = 0) :
    ∀ i, (offsets.getD i 0 = 0 ∨
      check_offset srclen (offsets.getD i 0) (lengths.getD i 0) = false) →
      ((wtdStep srclen lengths st x).destOffsets).getD i 0 = 0 := by
  intro i hbad
  have hxd : offsets.getD x.2 0 = x.1 := by
    simp [List.getD_eq_getElem?_getD, hx]
  by_cases hguard : x.1 ≠ 0 ∧ check_offset srclen x.1 (lengths.getD x.2 0) = true
  · have hne : i ≠ x.2 := by
      intro he
      subst he
      rcases hbad with hb | hb
      · exact hguard.1 (by rw [← hxd, hb])
      · rw [hxd] at hb
        rw [hb] at hguard
        exact absurd hguard.2 (by simp)
    have hset : ∀ (v : Int), (st.destOffsets.set x.2 v)[i]?.getD 0 = st.destOffsets[i]?.getD 0 := by
      intro v
      rw [List.getElem?_set_ne (fun he => hne he.symm)]
    cases h : st.lastOffset with
    | some t =>
      obtain ⟨lo, ll, li⟩ := t
      by_cases hr : lo = x.1 ∧ ll = lengths.getD x.2 0
      · simp only [wtdStep, h, if_pos hguard, if_pos hr]
        simpa [hset] using hinv i hbad
      · simp only [wtdStep, h, if_pos hguard, if_neg hr, wtdCopy_destOffsets]
        simpa [hset] using hinv i hbad
    | none =>
      simp only [wtdStep, h, if_pos hguard, wtdCopy_destOffsets]
      simpa [hset] using hinv i hbad
  · simp only [wtdStep, if_neg hguard]
    exact hinv i hbad

theorem wtd_fold_bad (srclen : Int) (offsets lengths : List Int)
    (l : List (Int × Nat)) (hmem : ∀ x ∈ l, offsets[x.2]? = some x.1)
    (st : WtdState)
    (hinv : ∀ i, (offsets.getD i 0 = 0 ∨
      check_offset srclen (offsets.getD i 0) (lengths.getD i 0) = false) →
      st.destOffsets.getD i 0 = 0) :
    ∀ i, (offsets.getD i 0 = 0 ∨
      check_offset srclen (offsets.getD i 0) (lengths.getD i 0) = false) →
      ((l.foldl (wtdStep srclen lengths) st).destOffsets).getD i 0 = 0 := by
  induction l generalizing st with
  | nil => exact hinv
  | cons x xs ih =>
    rw [List.foldl_cons]
    exact ih (fun y hy => hmem y (by simp [hy]))
      (wtdStep srclen lengths st x)
      (wtdStep_bad_zero srclen offsets lengths st x (hmem x (by simp)) hinv)

/-- C2: write_tag_data raises the OffsetsAndCountsMismatch error exactly
when the offsets array and the lengths array have different lengths;
otherwise it returns a list of the same length as the offsets array, in
original index order, whose entry is 0 at every index whose source
(offset, length) pair is zero or fails the bounds check against the
source file length. -/
theorem C2_write_tag_data (dest : Dst) (src : List Nat) (offsets lengths : List Int)
    (srclen : Int) :
    (offsets.length ≠ lengths.length →
      write_tag_data dest src offsets lengths srclen = .error .otherError) ∧
    (offsets.length = lengths.length →
      ∃ d2 res, write_tag_data dest src offsets lengths srclen = .ok (d2, res) ∧
        res.length = offsets.length ∧
        ∀ i, i < offsets.length →
          (offsets.getD i 0 = 0 ∨
            check_offset srclen (offsets.getD i 0) (lengths.getD i 0) = false) →
          res.getD i 0 = 0) := by
  constructor
  · intro hne
    simp only [write_tag_data, if_pos hne]
  · intro heq
    have hcond : ¬(offsets.length ≠ lengths.length) := fun h => h heq
    simp only [write_tag_data, if_neg hcond]
    refine ⟨_, _, rfl, ?_, ?_⟩
    · rw [wtd_fold_len]
      simp
    · intro i _ hbad
      refine wtd_fold_bad srclen offsets lengths _
        (fun x hx => enumSwap_mem offsets x (sortOffsets_mem x _ hx)) _ ?_ i hbad
      intro j _
      simp only [List.getD_eq_getElem?_getD, List.getElem?_replicate]
      split <;> rfl

/-- Witness for C2 at concrete inputs: mismatched arrays raise, matched
arrays return one destination offset per index with zeroes at the zero
offset and at the out-of-range pair. -/
theorem C2_write_tag_data_witness :
    write_tag_data (Dst.buf ⟨List.replicate 10 0, 10⟩) (List.range 30)
      [100, 0, 8] [4, 4] 20 = .error .otherError ∧
    ∃ d2 res,
      write_tag_data (Dst.buf ⟨List.replicate 10 0, 10⟩) (List.range 30)
        [100, 0, 8] [4, 4, 4] 20 = .ok (d2, res) ∧
      res.length = ([100, 0, 8] : List Int).length ∧
      ∀ i, i < ([100, 0, 8] : List Int).length →
        (([100, 0, 8] : List Int).getD i 0 = 0 ∨
          check_offset 20 (([100, 0, 8] : List Int).getD i 0)
            (([4, 4, 4] : List Int).getD i 0) = false) →
        res.getD i 0 = 0 :=
  ⟨(C2_write_tag_data _ _ _ _ _).1 (by decide),
    (C2_write_tag_data _ _ _ _ _).2 (by decide)⟩

/-- C6: in NDPI mode (classic header, file size at least 2 to the 32, a
tag flagged ndpi_offset with out-of-slot data), for every raw offset
value D read from an entry of an IFD located at offset I, the stored
offset equals I - ((I - D) mod 2 to the 32) when D is below I, and equals
D otherwise. -/
theorem C6_ndpi_widen (tagSetPresent : Bool) (size ifdOffset tag datatype count data : Nat)
    (hset : tagSetPresent = true) (htag : tagNdpiOffset tag = true)
    (hsize : 2 ^ 32 ≤ size) (hout : 4 < count * dtSize datatype) :
    readEntryOffset false tagSetPresent size ifdOffset tag datatype count data =
      some (if data < ifdOffset then ifdOffset - ((ifdOffset - data) % 2 ^ 32)
        else data) := by
  subst hset
  have hbig : decide (size ≥ 0x100000000) = true := by
    simp only [decide_eq_true_eq]
    calc (0x100000000 : Nat) = 2 ^ 32 := by norm_num
    _ ≤ size := hsize
  have hmod : (ifdOffset - data) &&& 0xFFFFFFFF = (ifdOffset - data) % 2 ^ 32 := by
    have h1 : (0xFFFFFFFF : Nat) = 2 ^ 32 - 1 := by norm_num
    rw [h1]
    exact Nat.and_pow_two_sub_one_eq_mod (ifdOffset - data) 32
  simp only [readEntryOffset, ndpiWiden, htag, hbig, hmod]
  simp [hout]

/-- Witness for C6: a concrete wrapped offset below a concrete IFD
position above 4 GiB is widened to the recovered 64-bit offset. -/
theorem C6_ndpi_widen_witness :
    readEntryOffset false true (2 ^ 32) 4294967396 65324 4 2 50 =
      some 4294967346 := by
  have h := C6_ndpi_widen true (2 ^ 32) 4294967396 65324 4 2 50 rfl (by decide)
    (by norm_num) (by decide)
  rw [h]
  norm_num

/-- C3 counterexample: the SLONG8 value at exactly negative 2 to the 31
lies in the signed 32-bit range, yet the classic-mode adjustment raises
MustBeBigTiffError instead of downgrading to SLONG, because the code
tests abs(x) < 2 to the 31 strictly. -/
theorem C3_counterexample :
    (-(2 ^ 31) : Int) ≥ -(2 ^ 31) ∧ (-(2 ^ 31) : Int) ≤ 2 ^ 31 - 1 ∧
    adjustTaginfoForNonBigtiff false 17 [-(2 ^ 31)] = .error .mustBeBigTiff := by
  refine ⟨le_refl _, by norm_num, ?_⟩
  rfl

/-- C3 as amended: when writing a non-BigTIFF file, a LONG8 tag (whose
values are nonnegative, as unpacked values of an unsigned type are) is
downgraded to LONG exactly when all values fit in LONG, and an SLONG8 tag
is downgraded to SLONG exactly when all values have absolute value
strictly below 2 to the 31, that is lie in the interval from negative
(2 to the 31 minus 1) to 2 to the 31 minus 1; otherwise
MustBeBigTiffError is raised. -/
theorem C3_adjust_datatypes (data : List Int) :
    ((∀ x ∈ data, 0 ≤ x) →
      ((adjustTaginfoForNonBigtiff false 16 data = .ok 4 ↔
        ∀ x ∈ data, 0 ≤ x ∧ x ≤ 2 ^ 32 - 1) ∧
      (adjustTaginfoForNonBigtiff false 16 data = .error .mustBeBigTiff ↔
        ¬∀ x ∈ data, 0 ≤ x ∧ x ≤ 2 ^ 32 - 1))) ∧
    (adjustTaginfoForNonBigtiff false 17 data = .ok 9 ↔
      ∀ x ∈ data, -(2 ^ 31) + 1 ≤ x ∧ x ≤ 2 ^ 31 - 1) ∧
    (adjustTaginfoForNonBigtiff false 17 data = .error .mustBeBigTiff ↔
      ¬∀ x ∈ data, -(2 ^ 31) + 1 ≤ x ∧ x ≤ 2 ^ 31 - 1) := by
  have h16 : (data.all fun x => decide (x < 2 ^ 32)) = true ↔
      ∀ x ∈ data, x < 2 ^ 32 := by
    simp [List.all_eq_true]
  have h17 : (data.all fun x => decide (x.natAbs < 2 ^ 31)) = true ↔
      ∀ x ∈ data, -(2 ^ 31) + 1 ≤ x ∧ x ≤ 2 ^ 31 - 1 := by
    simp only [List.all_eq_true, decide_eq_true_eq]
    constructor
    · intro h x hx
      have := h x hx
      omega
    · intro h x hx
      have := h x hx
      omega
  have e16 : adjustTaginfoForNonBigtiff false 16 data =
      (if (data.all fun x => decide (x < 2 ^ 32)) = true then .ok 4
        else .error .mustBeBigTiff) := by
    simp only [adjustTaginfoForNonBigtiff]
    rw [if_pos (by norm_num)]
    by_cases hc : (data.all fun x => decide (x < 2 ^ 32)) = true
    · rw [if_pos ⟨by norm_num, hc⟩, if_pos hc]
    · rw [if_neg (fun hh => hc hh.2), if_neg (fun hh => by exact absurd hh.1 (by norm_num)),
        if_neg hc]
  have e17 : adjustTaginfoForNonBigtiff false 17 data =
      (if (data.all fun x => decide (x.natAbs < 2 ^ 31)) = true then .ok 9
        else .error .mustBeBigTiff) := by
    simp only [adjustTaginfoForNonBigtiff]
    rw [if_pos (by norm_num), if_neg (fun hh => by exact absurd hh.1 (by norm_num))]
    by_cases hc : (data.all fun x => decide (x.natAbs < 2 ^ 31)) = true
    · rw [if_pos ⟨by norm_num, hc⟩, if_pos hc]
    · rw [if_neg (fun hh => hc hh.2), if_neg hc]
  constructor
  · intro hnn
    have hiff : (∀ x ∈ data, x < 2 ^ 32) ↔ (∀ x ∈ data, 0 ≤ x ∧ x ≤ 2 ^ 32 - 1) := by
      constructor
      · intro h x hx
        have h1 := h x hx
        have h2 := hnn x hx
        omega
      · intro h x hx
        have h1 := h x hx
        omega
    by_cases hc : (data.all fun x => decide (x < 2 ^ 32)) = true
    · rw [e16, if_pos hc]
      exact ⟨iff_of_true rfl (by simpa using hiff.mp (h16.mp hc)),
        iff_of_false (by simp) (by simpa using hiff.mp (h16.mp hc))⟩
    · rw [e16, if_neg hc]
      refine ⟨iff_of_false (by simp) ?_, iff_of_true rfl ?_⟩ <;>
        exact fun hh => hc (h16.mpr (hiff.mpr (by simpa using hh)))
  · by_cases hc : (data.all fun x => decide (x.natAbs < 2 ^ 31)) = true
    · rw [e17, if_pos hc]
      exact ⟨iff_of_true rfl (by simpa using h17.mp hc),
        iff_of_false (by simp) (by simpa using h17.mp hc)⟩
    · rw [e17, if_neg hc]
      refine ⟨iff_of_false (by simp) ?_, iff_of_true rfl ?_⟩ <;>
        exact fun hh => hc (h17.mpr (by simpa using hh))

/-- Witness for the amended C3: a small LONG8 value downgrades to LONG
and an in-range SLONG8 value downgrades to SLONG. -/
theorem C3_adjust_datatypes_witness :
    adjustTaginfoForNonBigtiff false 16 [5] = .ok 4 ∧
    adjustTaginfoForNonBigtiff false 17 [-(2 ^ 31) + 1] = .ok 9 :=
  ⟨((C3_adjust_datatypes [5]).1 (by decide)).1.mpr (by decide),
    (C3_adjust_datatypes [-(2 ^ 31) + 1]).2.1.mpr (by decide)⟩

/-- C9 counterexample: with the dash source (stdin) and no output
specified, tiff_set writes directly to the dash path instead of going
through a temporary file and copying back, because the self-overwrite
branch requires the source to differ from the dash path. -/
theorem C9_counterexample :
    tiff_set (fun p => p) (fun _ => false) dashPath none false =
      .ok (.direct dashPath) ∧
    WriteRoute.direct dashPath ≠ WriteRoute.tempCopyBack := by
  exact ⟨rfl, by decide⟩

/-- C9 as amended: for every call to tiff_set whose output path is
unspecified or resolves to the same file as the source, provided the
source is not the dash pseudo-path and the pre-existing-output check
passes (the output does not exist or overwrite is set), the transform
writes the result to a temporary file and then copies it back into the
input path rather than writing the output directly. -/
theorem C9_self_overwrite (realpath : List Nat → List Nat)
    (fsExists : List Nat → Bool) (source : List Nat) (output : Option (List Nat))
    (overwrite : Bool)
    (hsame : realpath source = realpath (output.getD source))
    (hok : fsExists (output.getD source) = false ∨ overwrite = true)
    (hdash : source ≠ dashPath) :
    tiff_set realpath fsExists source output overwrite = .ok .tempCopyBack := by
  have hc1 : (fsExists (output.getD source) && !overwrite) = false := by
    rcases hok with h | h <;> simp [h]
  simp only [tiff_set, hc1, Bool.false_eq_true, if_false]
  rw [if_pos ⟨hsame, hdash⟩]

/-- Witness for the amended C9: overwriting a one-byte path in place
routes through the temporary file. -/
theorem C9_self_overwrite_witness :
    tiff_set (fun p => p) (fun _ => true) [97] none true = .ok .tempCopyBack :=
  C9_self_overwrite (fun p => p) (fun _ => true) [97] none true rfl
    (Or.inr rfl) (by decide)

theorem tagsRemove_cons (a : Nat × RData) (as : List (Nat × RData)) (k : Nat) :
    tagsRemove (a :: as) k =
      if a.1 = k then tagsRemove as k else a :: tagsRemove as k := by
  rw [tagsRemove, List.filter_cons]
  by_cases hak : a.1 = k
  · rw [if_pos hak, if_neg (by simp [hak])]
    rfl
  · rw [if_neg hak, if_pos (by simp [hak])]
    rfl

theorem tagLookup_cons (a : Nat × RData) (as : List (Nat × RData)) (t : Nat) :
    tagLookup (a :: as) t = if a.1 = t then some a.2 else tagLookup as t := by
  rw [tagLookup, List.find?_cons]
  by_cases hat : a.1 = t
  · rw [if_pos hat, show (decide (a.1 = t)) = true by simp [hat]]
    rfl
  · rw [if_neg hat, show (decide (a.1 = t)) = false by simp [hat]]
    rfl

theorem tagLookup_remove_ne (ts : List (Nat × RData)) (k t : Nat) (h : k ≠ t) :
    tagLookup (tagsRemove ts k) t = tagLookup ts t := by
  induction ts with
  | nil => rfl
  | cons a as ih =>
    rw [tagsRemove_cons, tagLookup_cons]
    by_cases hak : a.1 = k
    · rw [if_pos hak, if_neg (by rw [hak]; exact h), ih]
    · rw [if_neg hak, tagLookup_cons, ih]

theorem tagLookup_tagsSet_self (ts : List (Nat × RData)) (t : Nat) (v : RData) :
    tagLookup (tagsSet ts t v) t = some v := by
  rw [tagsSet, tagLookup_cons, if_pos rfl]

theorem tagLookup_tagsSet_ne (ts : List (Nat × RData)) (k t : Nat) (v : RData)
    (h : k ≠ t) : tagLookup (tagsSet ts k v) t = tagLookup ts t := by
  rw [tagsSet, tagLookup_cons, if_neg h, tagLookup_remove_ne ts k t h]

theorem lastParsed_append_one (ps : List (Nat × Option RData)) (p : Nat × Option RData)
    (t : Nat) :
    lastParsed (ps ++ [p]) t = if p.1 = t then some p.2 else lastParsed ps t := by
  rw [lastParsed, List.reverse_append, List.reverse_singleton, List.singleton_append,
    List.find?_cons]
  by_cases hp : p.1 = t
  · rw [if_pos hp, show (decide (p.1 = t)) = true by simp [hp]]
    rfl
  · rw [if_neg hp, show (decide (p.1 = t)) = false by simp [hp]]
    rfl

theorem setfrom_fold_pres (l : List (Nat × Option RData)) (t : Nat)
    (hl : ∀ p ∈ l, p.1 ≠ t ∨ p.2 = none) (ts : List (Nat × RData)) :
    tagLookup (l.foldl
      (fun ts p => match p.2 with | some v => tagsSet ts p.1 v | none => ts) ts) t =
    tagLookup ts t := by
  induction l generalizing ts with
  | nil => rfl
  | cons p ps ih =>
    rw [List.foldl_cons]
    cases hp : p.2 with
    | none =>
      rw [ih (fun q hq => hl q (by simp [hq]))]
    | some w =>
      rw [ih (fun q hq => hl q (by simp [hq]))]
      have hne : p.1 ≠ t := by
        rcases hl p (by simp) with h | h
        · exact h
        · rw [hp] at h
          exact absurd h (by simp)
      exact tagLookup_tagsSet_ne ts p.1 t w hne

theorem setlist_fold_last (l : List (Nat × Option RData)) (t : Nat) (v : RData)
    (hv : lastParsed l t = some (some v)) (ts : List (Nat × RData)) :
    tagLookup (l.foldl
      (fun ts p => match p.2 with | some v => tagsSet ts p.1 v | none => ts) ts) t =
    some v := by
  induction l using List.reverseRecOn generalizing ts with
  | nil => simp [lastParsed] at hv
  | append_singleton ps p ih =>
    rw [List.foldl_append, List.foldl_cons, List.foldl_nil]
    rw [lastParsed_append_one] at hv
    by_cases hp : p.1 = t
    · rw [if_pos hp] at hv
      have hv2 : p.2 = some v := Option.some.inj hv
      rw [hv2, ← hp]
      exact tagLookup_tagsSet_self _ p.1 v
    · rw [if_neg hp] at hv
      cases hq : p.2 with
      | none => exact ih hv ts
      | some w =>
        rw [tagLookup_tagsSet_ne _ p.1 t w hp]
        exact ih hv ts

/-- C10: within a single tiff_set invocation all unset operations are
applied before any set or set-from operations, so a tag specifier that
appears both in the unset list and in the set list ends up in the output
with the value of its last parsed set entry, as long as no set-from entry
overrides the same tag afterwards. -/
theorem C10_unset_then_set (tags : List (Nat × RData)) (unset : List Nat)
    (setlist setfrom : List (Nat × Option RData)) (t : Nat) (v : RData)
    (_hu : t ∈ unset) (hset : lastParsed setlist t = some (some v))
    (hfrom : ∀ p ∈ setfrom, p.1 ≠ t ∨ p.2 = none) :
    tagLookup (tiff_set_tags tags unset setlist setfrom) t = some v := by
  unfold tiff_set_tags
  rw [setfrom_fold_pres setfrom t hfrom, setlist_fold_last setlist t v hset]

/-- Witness for C10: a tag that is both unset and set ends up with the
set value. -/
theorem C10_unset_then_set_witness :
    tagLookup (tiff_set_tags [(5, .raw [1])] [5] [(5, some (.ints [9]))] []) 5 =
      some (.ints [9]) :=
  C10_unset_then_set [(5, .raw [1])] [5] [(5, some (.ints [9]))] [] 5 (.ints [9])
    (by decide) (by decide) (by simp)

theorem splitAfterMarker_append (pre rest : List Nat) (hpre : hasMarker pre = false) :
    splitAfterMarker (pre ++ 0xFF :: 0xDB :: rest) = some rest := by
  induction pre with
  | nil => rfl
  | cons a pre2 ih =>
    cases pre2 with
    | nil =>
      show splitAfterMarker (a :: 0xFF :: 0xDB :: rest) = some rest
      simp only [splitAfterMarker]
      rw [if_neg (by rintro ⟨_, h⟩; exact absurd h (by norm_num))]
      rfl
    | cons b pre3 =>
      show splitAfterMarker (a :: (b :: pre3) ++ 0xFF :: 0xDB :: rest) = some rest
      have hm : hasMarker (b :: pre3) = false ∧ ¬(a = 0xFF ∧ b = 0xDB) := by
        rw [hasMarker] at hpre
        simp only [Bool.or_eq_false_iff] at hpre
        refine ⟨hpre.2, fun hh => ?_⟩
        have := hpre.1
        simp [hh.1, hh.2] at this
      rw [List.cons_append]
      simp only [splitAfterMarker]
      rw [if_neg (by
        intro hh
        exact hm.2 ⟨hh.1, by
          cases pre3 with
          | nil => simpa using hh.2
          | cons c pre4 => simpa using hh.2⟩)]
      exact ih hm.1

theorem unpackBE16_length : ∀ (l : List Nat), (unpackBE16 l).length = l.length / 2
  | [] => by simp [unpackBE16]
  | [_] => by simp [unpackBE16]
  | a :: b :: rest => by
    rw [unpackBE16, List.length_cons, unpackBE16_length rest]
    simp only [List.length_cons]
    omega

/-- C8 counterexample: on an eight-bit quantization table with entry 58
equal to 50 and entry 15 equal to 100, the code returns 100 - 50 / 2 = 75
(the Q58 branch applies to eight-bit tables too), while the claim
prescribes 5000 / 2.5 / Q15 = 20 for eight-bit tables. -/
theorem C8_counterexample :
    EstimateJpegQuality jpegTablesEx = some 75 ∧ (2000 : Nat) / 100 = 20 ∧
    (75 : Nat) ≠ 20 := by
  refine ⟨by decide, by norm_num, by decide⟩

/-- C8 as amended: the estimate examines the first quantization table
after the first FF DB marker, only when the low nibble of its precision
byte is zero; regardless of table precision, with Q the 64 decoded table
values the estimate is 100 - Q58 / 2 (truncated) when Q58 is below 100
and otherwise 5000 / 2.5 / Q15 (truncated, and no estimate when Q15 is
zero); any parsing failure yields no estimate. -/
theorem C8_jpeg_quality (pre tbl : List Nat) (l0 l1 prec : Nat)
    (hpre : hasMarker pre = false) (hprec : prec &&& 0xF = 0)
    (htab : l0 * 256 + l1 = 3 + tbl.length)
    (hlen : tbl.length = 64 * (if prec ≠ 0 then 2 else 1)) :
    EstimateJpegQuality (pre ++ 0xFF :: 0xDB :: l0 :: l1 :: prec :: tbl) =
      (if (if prec ≠ 0 then unpackBE16 tbl else tbl).getD 58 0 < 100 then
        some ((200 - (if prec ≠ 0 then unpackBE16 tbl else tbl).getD 58 0) / 2)
      else if (if prec ≠ 0 then unpackBE16 tbl else tbl).getD 15 0 = 0 then none
      else some (2000 / (if prec ≠ 0 then unpackBE16 tbl else tbl).getD 15 0)) := by
  have h1 := splitAfterMarker_append pre (l0 :: l1 :: prec :: tbl) hpre
  have hvlen : (if prec ≠ 0 then unpackBE16 tbl else tbl).length = 64 := by
    by_cases hp : prec ≠ 0
    · rw [if_pos hp, unpackBE16_length, hlen, if_pos hp]
    · rw [if_neg hp, hlen, if_neg hp]
  have h58 : (if prec ≠ 0 then unpackBE16 tbl else tbl).get? 58 =
      some ((if prec ≠ 0 then unpackBE16 tbl else tbl).getD 58 0) := by
    rw [List.getD_eq_getElem?_getD, List.get?_eq_getElem?]
    rw [List.getElem?_eq_getElem (by omega)]
    rfl
  have h15 : (if prec ≠ 0 then unpackBE16 tbl else tbl).get? 15 =
      some ((if prec ≠ 0 then unpackBE16 tbl else tbl).getD 15 0) := by
    rw [List.getD_eq_getElem?_getD, List.get?_eq_getElem?]
    rw [List.getElem?_eq_getElem (by omega)]
    rfl
  have htake : (l0 :: l1 :: prec :: tbl).take (l0 * 256 + l1) =
      l0 :: l1 :: prec :: tbl := by
    apply List.take_of_length_le
    simp only [List.length_cons, htab]
    omega
  have hseg : tbl.take (64 * (if prec ≠ 0 then 2 else 1)) = tbl := by
    apply List.take_of_length_le
    omega
  simp only [EstimateJpegQuality, h1, htake, List.drop_succ_cons, List.drop_zero]
  rw [if_pos hprec]
  simp only [hseg, hlen, if_pos rfl, h58, h15, if_true]

/-- Witness for the amended C8: a sixteen-bit table with a large Q58 and
a small Q15 produces the Q15-based estimate. -/
theorem C8_jpeg_quality_witness :
    EstimateJpegQuality ([1] ++ 0xFF :: 0xDB :: 0 :: 131 :: 16 ::
      (List.replicate 128 200)) =
      (if (unpackBE16 (List.replicate 128 200)).getD 58 0 < 100 then
        some ((200 - (unpackBE16 (List.replicate 128 200)).getD 58 0) / 2)
      else if (unpackBE16 (List.replicate 128 200)).getD 15 0 = 0 then none
      else some (2000 / (unpackBE16 (List.replicate 128 200)).getD 15 0)) := by
  have h := C8_jpeg_quality [1] (List.replicate 128 200) 0 131 16
    (by decide) (by decide) (by simp) (by simp)
  simpa using h

theorem utf8Run_append (xs : List Nat) :
    ∀ (st : Option (Nat × Nat × Nat × Nat)) (ys cs : List Nat),
      utf8Run st xs = some cs →
      utf8Run st (xs ++ ys) = (utf8Run none ys).map (fun ds => cs ++ ds) := by
  induction xs with
  | nil =>
    intro st ys cs h
    cases st with
    | none =>
      rw [utf8Run] at h
      cases h
      simp only [List.nil_append]
      cases utf8Run none ys <;> simp
    | some st4 =>
      rw [utf8Run] at h
      exact Option.noConfusion h
  | cons b rest ih =>
    intro st ys cs h
    cases st with
    | none =>
      rw [List.cons_append]
      rw [utf8Run] at h ⊢
      cases hl : utf8Lead b with
      | none =>
        rw [hl] at h
        exact Option.noConfusion h
      | some o =>
        rw [hl] at h
        cases o with
        | none =>
          have h2 : (utf8Run none rest).map (fun cs => b :: cs) = some cs := h
          show (utf8Run none (rest ++ ys)).map (fun cs => b :: cs) =
            (utf8Run none ys).map (fun ds => cs ++ ds)
          cases hr : utf8Run none rest with
          | none =>
            rw [hr] at h2
            exact Option.noConfusion h2
          | some cs2 =>
            rw [hr] at h2
            cases Option.some.inj h2
            rw [ih none ys cs2 hr]
            cases utf8Run none ys <;> simp
        | some st2 =>
          have h2 : utf8Run (some st2) rest = some cs := h
          show utf8Run (some st2) (rest ++ ys) =
            (utf8Run none ys).map (fun ds => cs ++ ds)
          exact ih (some st2) ys cs h2
    | some st4 =>
      obtain ⟨need, cp, lo, hi⟩ := st4
      rw [List.cons_append]
      rw [utf8Run] at h ⊢
      by_cases hc : lo ≤ b ∧ b ≤ hi
      · rw [if_pos hc] at h ⊢
        by_cases hn : need = 0
        · rw [if_pos hn] at h ⊢
          cases hr : utf8Run none rest with
          | none =>
            rw [hr] at h
            exact Option.noConfusion h
          | some cs2 =>
            rw [hr] at h
            cases Option.some.inj h
            rw [ih none ys cs2 hr]
            cases utf8Run none ys <;> simp
        · rw [if_neg hn] at h ⊢
          exact ih _ ys cs h
      · rw [if_neg hc] at h
        exact Option.noConfusion h

theorem utf8Run_zeros (k : Nat) :
    utf8Run none (List.replicate k 0) = some (List.replicate k 0) := by
  induction k with
  | zero => rfl
  | succ n ih =>
    rw [List.replicate_succ, utf8Run]
    have hl : utf8Lead 0 = some none := by decide
    rw [hl, ih]
    rfl

theorem rstripNul_decomp (l : List Nat) :
    ∃ k, l = rstripNul l ++ List.replicate k 0 := by
  refine ⟨(l.reverse.takeWhile (fun b => b = 0)).length, ?_⟩
  have h1 : l.reverse.takeWhile (fun b => b = 0) =
      List.replicate (l.reverse.takeWhile (fun b => b = 0)).length 0 := by
    apply List.eq_replicate_of_mem
    intro b hb
    have := List.mem_takeWhile_imp hb
    simpa using this
  calc l = l.reverse.reverse := by rw [List.reverse_reverse]
  _ = (l.reverse.takeWhile (fun b => b = 0) ++
      l.reverse.dropWhile (fun b => b = 0)).reverse := by
    rw [List.takeWhile_append_dropWhile]
  _ = rstripNul l ++ (l.reverse.takeWhile (fun b => b = 0)).reverse := by
    rw [List.reverse_append]
    rfl
  _ = rstripNul l ++ List.replicate (l.reverse.takeWhile (fun b => b = 0)).length 0 := by
    rw [congrArg List.reverse h1, List.reverse_replicate]

theorem utf8Decode_rstrip_none (raw : List Nat) (h : utf8Decode raw = none) :
    utf8Decode (rstripNul raw) = none := by
  cases hs : utf8Decode (rstripNul raw) with
  | none => rfl
  | some cs =>
    obtain ⟨k, hk⟩ := rstripNul_decomp raw
    rw [utf8Decode] at h
    rw [hk, utf8Run_append (rstripNul raw) none (List.replicate k 0) cs hs,
      utf8Run_zeros k] at h
    simp at h

/-- C4 counterexample: a payload of one letter and two trailing NUL
bytes.  The reader strips both NUL bytes and stores the one-letter
string, while the claim (strip a single trailing NUL) would store the
letter followed by one NUL. -/
theorem C4_counterexample :
    (read_ifd_tag_data false 11 fileAsciiEx [tagAsciiEx]).map (fun u => u.data) =
      [some (.str [97])] ∧
    stripSingleNul [97, 0, 0] = [97, 0] ∧
    utf8Decode [97, 0] = some [97, 0] ∧
    RData.str [97] ≠ RData.str [97, 0] := by
  refine ⟨by decide, by decide, by decide, by decide⟩

/-- C4 as amended: when the reader decodes an ASCII tag payload, it
strips every trailing NUL byte and then decodes the remainder as UTF-8;
whenever that decoding fails the raw (unstripped) payload bytes are
retained as the tag data.  In particular, for every payload whose raw
bytes fail UTF-8 decoding, the raw bytes are retained. -/
theorem C4_ascii_strip (be : Bool) (file : List Nat) (t : RTagInfo)
    (h2 : t.datatype = 2) :
    ((resolveTag be file t).data =
      some (match utf8Decode (rstripNul
          ((file.drop (t.offset.getD t.datapos)).take t.count)) with
        | some cps => RData.str cps
        | none => RData.raw ((file.drop (t.offset.getD t.datapos)).take t.count))) ∧
    (utf8Decode ((file.drop (t.offset.getD t.datapos)).take t.count) = none →
      (resolveTag be file t).data =
        some (RData.raw ((file.drop (t.offset.getD t.datapos)).take t.count))) := by
  have hdp : dtPack 2 = none := rfl
  have hds : dtSize 2 = 1 := rfl
  constructor
  · simp only [resolveTag, h2, hdp, hds, Nat.mul_one, if_pos]
  · intro hfail
    simp only [resolveTag, h2, hdp, hds, Nat.mul_one, if_pos]
    rw [utf8Decode_rstrip_none _ hfail]

/-- Witness for the amended C4: an invalid byte payload is retained raw,
and a NUL-padded letter decodes to the stripped string. -/
theorem C4_ascii_strip_witness :
    (resolveTag false (List.replicate 8 0 ++ [0xC2, 0xC2]) ⟨270, 2, 2, 8, none, none⟩).data =
      some (RData.raw [0xC2, 0xC2]) ∧
    (resolveTag false fileAsciiEx tagAsciiEx).data = some (RData.str [97]) := by
  constructor
  · have h := (C4_ascii_strip false (List.replicate 8 0 ++ [0xC2, 0xC2])
      ⟨270, 2, 2, 8, none, none⟩ rfl).2 (by decide)
    simpa using h
  · have h := (C4_ascii_strip false fileAsciiEx tagAsciiEx rfl).1
    simpa using h

/-- C5 counterexample: an IFD of two tags in which exactly the first
tag's range fails the bounds check.  The claim requires the second tag's
payload to still be resolved, but the code returns from the whole
function at the first failure, leaving both tags unresolved. -/
theorem C5_counterexample :
    tagBoundsOk 20 tagFailEx = false ∧
    tagBoundsOk 20 tagOkEx = true ∧
    read_ifd_tag_data false 20 fileEx [tagFailEx, tagOkEx] = [tagFailEx, tagOkEx] ∧
    tagOkEx.data = none := by
  refine ⟨by decide, by decide, by decide, rfl⟩

/-- C5 as amended: payload resolution stops at the first tag whose bounds
check fails.  Tags before the first failure are resolved; the failing tag
and every tag after it, resolvable or not, are left with unresolved
(empty) data.  When no tag fails, every payload is resolved. -/
theorem C5_stop_at_first_failure (be : Bool) (size : Nat) (file : List Nat)
    (tags : List RTagInfo) :
    read_ifd_tag_data be size file tags =
      (tags.takeWhile (tagBoundsOk size)).map (resolveTag be file) ++
        tags.dropWhile (tagBoundsOk size) := by
  induction tags with
  | nil => rfl
  | cons t rest ih =>
    show (if tagBoundsOk size t = true then
        resolveTag be file t :: read_ifd_tag_data be size file rest
      else t :: rest) = _
    rw [List.takeWhile_cons, List.dropWhile_cons]
    by_cases hp : tagBoundsOk size t = true
    · rw [if_pos hp, if_pos hp, if_pos hp, ih, List.map_cons, List.cons_append]
    · rw [if_neg hp, if_neg hp, if_neg hp, List.map_nil, List.nil_append]

/-! The MustBeBigTiff analysis: with bigtiff on, no writer component ever
produces the MustBeBigTiffError outcome, so the single retry of
write_tiff always completes. -/

theorem noMBBT_bind {α β : Type} (e : Except WErr α) (f : α → Except WErr β)
    (he : isMBBT e = false) (hf : ∀ a, isMBBT (f a) = false) :
    isMBBT (Bind.bind e f) = false := by
  cases e with
  | error err =>
    cases err with
    | mustBeBigTiff => exact Bool.noConfusion he
    | otherError => rfl
    | fuelExhausted => rfl
  | ok a => exact hf a

theorem noMBBT_ite {α : Type} (c : Prop) [Decidable c] (a b : Except WErr α)
    (ha : isMBBT a = false) (hb : isMBBT b = false) :
    isMBBT (if c then a else b) = false := by
  by_cases h : c
  · rwa [if_pos h]
  · rwa [if_neg h]

theorem orErr_noMBBT {α : Type} (o : Option α) : isMBBT (orErr o) = false := by
  cases o <;> rfl

theorem noMBBT_ok {α : Type} (a : α) : isMBBT (Except.ok a : Except WErr α) = false := rfl

theorem noMBBT_other {α : Type} :
    isMBBT (Except.error WErr.otherError : Except WErr α) = false := rfl

theorem checkData_noMBBT (data : List Int) :
    isMBBT (checkDataForNonBigtiff true data) = false := by
  simp [checkDataForNonBigtiff, isMBBT]

theorem checkData_true (data : List Int) :
    checkDataForNonBigtiff true data = .ok () := by
  simp [checkDataForNonBigtiff]

theorem adjust_true (dt : Nat) (data : List Int) :
    adjustTaginfoForNonBigtiff true dt data = .ok dt := by
  simp [adjustTaginfoForNonBigtiff]

theorem write_tag_data_noMBBT (dest : Dst) (src : List Nat)
    (offsets lengths : List Int) (srclen : Int) :
    isMBBT (write_tag_data dest src offsets lengths srclen) = false := by
  simp only [write_tag_data]
  by_cases h : offsets.length ≠ lengths.length
  · rw [if_pos h]; rfl
  · rw [if_neg h]; rfl

theorem pkOf_noMBBT (be : Bool) (tinfo : TagEntry) (count0 : Nat) (data1 : TagData)
    (dt2 : Nat) : isMBBT (pkOf be tinfo count0 data1 dt2) = false := by
  rw [pkOf]
  cases dtPack dt2 with
  | some pw =>
    apply noMBBT_ite
    · rfl
    · rfl
  | none =>
    apply noMBBT_ite
    · cases data1.raw? <;> rfl
    · cases tinfo.data.raw? <;> rfl

theorem slotEmit_noMBBT (be : Bool) (st : TLState) (tag : Nat) (isIfdTag : Bool)
    (ptrlen : Nat) (dp1 : DPair) (deferred1 : List (Nat × Deferred)) (dt2 : Nat)
    (pk : List Nat × Nat) :
    isMBBT (slotEmit be true st tag isIfdTag ptrlen dp1 deferred1 dt2 pk) = false := by
  simp only [slotEmit, checkData_true]
  apply noMBBT_ite
  · rfl
  · apply noMBBT_bind _ _ (noMBBT_ok _)
    intro u
    rfl

theorem processTagTail_noMBBT (be : Bool) (tags : List (Nat × TagEntry)) (st : TLState)
    (tag : Nat) (tinfo : TagEntry) (isIfdTag : Bool) (count0 ptrlen : Nat)
    (dp1 : DPair) (data1 : TagData) (dt1v : Nat) (deferred1 : List (Nat × Deferred)) :
    isMBBT (processTagTail be true tags st tag tinfo isIfdTag count0 ptrlen
      dp1 data1 dt1v deferred1) = false := by
  simp only [processTagTail, adjust_true]
  apply noMBBT_bind _ _ (noMBBT_ok _)
  intro dt2
  apply noMBBT_bind _ _ (pkOf_noMBBT be tinfo count0 data1 dt2)
  intro pk
  apply slotEmit_noMBBT

set_option maxHeartbeats 1000000 in
theorem processTag_noMBBT (be ifdsFirst : Bool) (src : List Nat) (size : Nat)
    (tags : List (Nat × TagEntry)) (st : TLState) (tag : Nat) :
    isMBBT (processTag be true ifdsFirst src size tags st tag) = false := by
  simp only [processTag, checkData_true]
  apply noMBBT_bind _ _ (orErr_noMBBT _)
  intro tinfo
  apply noMBBT_ite
  · rfl
  · cases tagBytecounts tag with
    | none =>
      apply noMBBT_bind _ _ (noMBBT_ok _)
      intro y
      apply processTagTail_noMBBT
    | some bcspec =>
      apply noMBBT_bind _ _ (orErr_noMBBT _)
      intro offsets
      cases bcspec with
      | inl partner =>
        apply noMBBT_bind _ _ (orErr_noMBBT _)
        intro bcEntry
        apply noMBBT_bind _ _ (orErr_noMBBT _)
        intro bcData
        apply noMBBT_ite
        · apply noMBBT_bind _ _ (noMBBT_ok _)
          intro u
          apply noMBBT_bind _ _ (noMBBT_ok _)
          intro y
          apply processTagTail_noMBBT
        · apply noMBBT_bind _ _ (write_tag_data_noMBBT _ _ _ _ _)
          intro r
          apply noMBBT_bind _ _ (noMBBT_ok _)
          intro u
          apply noMBBT_bind _ _ (noMBBT_ok _)
          intro y
          apply processTagTail_noMBBT
      | inr lit =>
        apply noMBBT_bind _ _ (write_tag_data_noMBBT _ _ _ _ _)
        intro r
        apply noMBBT_bind _ _ (noMBBT_ok _)
        intro u
        apply noMBBT_bind _ _ (noMBBT_ok _)
        intro y
        apply processTagTail_noMBBT

theorem processTags_noMBBT (be ifdsFirst : Bool) (src : List Nat) (size : Nat)
    (tags : List (Nat × TagEntry)) :
    ∀ (l : List (Nat × TagEntry)) (st : TLState),
      isMBBT (processTags be true ifdsFirst src size tags l st) = false := by
  intro l
  induction l with
  | nil => intro st; rfl
  | cons e rest ih =>
    intro st
    exact noMBBT_bind _ _ (processTag_noMBBT be ifdsFirst src size tags st e.1)
      (fun st2 => ih st2)

theorem runDeferredWrites_noMBBT (src : List Nat) (size : Nat) :
    ∀ (l : List (Nat × Deferred)) (dp : DPair),
      isMBBT (runDeferredWrites src size dp l) = false := by
  intro l
  induction l with
  | nil => intro dp; rfl
  | cons p rest ih =>
    intro dp
    obtain ⟨k, d⟩ := p
    obtain ⟨dtag, ddata, dwr, ddt, dio, doff⟩ := d
    cases dwr with
    | some ow =>
      exact noMBBT_bind _ _ (write_tag_data_noMBBT _ _ _ _ _)
        (fun r => noMBBT_bind _ _ (ih _) (fun rec2 => rfl))
    | none =>
      exact noMBBT_bind _ _ (ih _) (fun rec2 => rfl)

theorem patchDeferred_noMBBT (be : Bool) :
    ∀ (l : List (Nat × Deferred)) (dp : DPair) (ifdrecord : List Nat),
      isMBBT (patchDeferred be true dp ifdrecord l) = false := by
  intro l
  induction l with
  | nil => intro dp ifdrecord; rfl
  | cons p rest ih =>
    intro dp ifdrecord
    obtain ⟨k, d⟩ := p
    obtain ⟨dtag, ddata, dwr, ddt, dio, doff⟩ := d
    apply noMBBT_bind _ _ (checkData_noMBBT _)
    intro u
    apply noMBBT_bind _ _ (orErr_noMBBT _)
    intro dt
    apply noMBBT_bind _ _ (orErr_noMBBT _)
    intro pw
    apply noMBBT_ite
    · rfl
    · cases dio with
      | some io => exact ih _ _
      | none =>
        cases doff with
        | some o => exact ih _ _
        | none => rfl

theorem writeChain_noMBBT (w : DPair → Ifd → Nat → Except WErr (DPair × Nat × List Nat))
    (hw : ∀ a b c, isMBBT (w a b c) = false) :
    ∀ (l : List Ifd) (dp : DPair) (p : Nat), isMBBT (writeChain w l dp p) = false := by
  intro l
  induction l with
  | nil => intro dp p; rfl
  | cons i rest ih =>
    intro dp p
    exact noMBBT_bind _ _ (hw _ _ _)
      (fun r => noMBBT_bind _ _ (ih _ _) (fun r2 => rfl))

theorem writeChains_noMBBT (w : DPair → Ifd → Nat → Except WErr (DPair × Nat × List Nat))
    (hw : ∀ a b c, isMBBT (w a b c) = false) (tagdatalen : Nat) :
    ∀ (l : List (List Ifd)) (dp : DPair) (p : Nat),
      isMBBT (writeChains w tagdatalen l dp p) = false := by
  intro l
  induction l with
  | nil => intro dp p; rfl
  | cons c rest ih =>
    intro dp p
    exact noMBBT_bind _ _ (writeChain_noMBBT w hw c dp p)
      (fun r => noMBBT_bind _ _ (ih _ _) (fun r2 => rfl))

theorem writeSubTags_noMBBT (w : DPair → Ifd → Nat → Except WErr (DPair × Nat × List Nat))
    (hw : ∀ a b c, isMBBT (w a b c) = false) (tagdatalen : Nat)
    (tags : List (Nat × TagEntry)) (parentPos : Nat) :
    ∀ (l : List (Nat × Int)) (dp : DPair),
      isMBBT (writeSubTags w tagdatalen tags parentPos l dp) = false := by
  intro l
  induction l with
  | nil => intro dp; rfl
  | cons e rest ih =>
    intro dp
    obtain ⟨tag, sp⟩ := e
    exact noMBBT_bind _ _ (orErr_noMBBT _)
      (fun entry => noMBBT_bind _ _ (writeChains_noMBBT w hw tagdatalen _ _ _)
        (fun r => noMBBT_bind _ _ (ih _) (fun r2 => rfl)))

theorem writeIfdLoop_noMBBT (w : DPair → Ifd → Nat → Except WErr (DPair × Nat × List Nat))
    (hw : ∀ a b c, isMBBT (w a b c) = false) :
    ∀ (l : List Ifd) (dp : DPair) (ptr : Nat),
      isMBBT (writeIfdLoop w l dp ptr) = false := by
  intro l
  induction l with
  | nil => intro dp ptr; rfl
  | cons i rest ih =>
    intro dp ptr
    exact noMBBT_bind _ _ (hw _ _ _)
      (fun r => noMBBT_bind _ _ (ih _ _) (fun r2 => rfl))

theorem write_ifd_noMBBT (be ifdsFirst : Bool) :
    ∀ (fuel : Nat) (dp : DPair) (ifd : Ifd) (ifdPtr : Nat),
      isMBBT (write_ifd be true ifdsFirst fuel dp ifd ifdPtr) = false := by
  intro fuel
  induction fuel with
  | zero => intro dp ifd ifdPtr; rfl
  | succ n ih =>
    intro dp ifd ifdPtr
    apply noMBBT_bind _ _ (processTags_noMBBT be ifdsFirst ifd.src ifd.size ifd.tags _ _)
    intro st
    apply noMBBT_bind _ _ (runDeferredWrites_noMBBT ifd.src ifd.size _ _)
    intro rdw
    apply noMBBT_bind _ _ (patchDeferred_noMBBT be _ _ _)
    intro pd
    apply noMBBT_bind _ _ (checkData_noMBBT _)
    intro u
    apply noMBBT_bind _ _
      (writeSubTags_noMBBT _ (fun a b c => ih a b c) _ _ _ _ _)
    intro r
    rfl

theorem write_tiff_once_noMBBT (be ifdsFirst : Bool) (fuel : Nat) (ifds : List Ifd) :
    isMBBT (write_tiff_once be true ifdsFirst fuel ifds) = false := by
  simp only [write_tiff_once]
  apply noMBBT_ite
  · apply noMBBT_bind _ _
      (writeIfdLoop_noMBBT _ (fun a b c => write_ifd_noMBBT be false fuel a b c) _ _ _)
    intro r
    cases r.1.ifdSide with
    | buf b => rfl
    | trk t => rfl
  · apply noMBBT_bind _ _
      (writeIfdLoop_noMBBT _ (fun a b c => write_ifd_noMBBT be true fuel a b c) _ _ _)
    intro r1
    apply noMBBT_bind _ _
      (writeIfdLoop_noMBBT _ (fun a b c => write_ifd_noMBBT be true fuel a b c) _ _ _)
    intro r2
    apply noMBBT_bind _ _
      (writeIfdLoop_noMBBT _ (fun a b c => write_ifd_noMBBT be true fuel a b c) _ _ _)
    intro r3
    cases r3.1.dataSide with
    | buf b => rfl
    | trk t => rfl

/-- C1: write_tiff never propagates the MustBeBigTiffError outcome.  A
BigTIFF serialization attempt never produces it, and whenever the first
attempt in the requested format produces it, write_tiff restarts the
whole serialization on a fresh destination exactly once with bigtiff
forced on. -/
theorem C1_write_tiff_retry (be bigtiff ifdsFirst : Bool) (fuel : Nat) (ifds : List Ifd) :
    isMBBT (write_tiff be bigtiff ifdsFirst fuel ifds) = false ∧
    isMBBT (write_tiff_once be true ifdsFirst fuel ifds) = false ∧
    (isMBBT (write_tiff_once be bigtiff ifdsFirst fuel ifds) = true →
      write_tiff be bigtiff ifdsFirst fuel ifds =
        write_tiff_once be true ifdsFirst fuel ifds) := by
  refine ⟨?_, write_tiff_once_noMBBT be ifdsFirst fuel ifds, ?_⟩
  · rw [write_tiff]
    cases h : write_tiff_once be bigtiff ifdsFirst fuel ifds with
    | ok w => rfl
    | error e =>
      cases e with
      | mustBeBigTiff => exact write_tiff_once_noMBBT be ifdsFirst fuel ifds
      | otherError => rfl
      | fuelExhausted => rfl
  · intro hm
    rw [write_tiff]
    cases h : write_tiff_once be bigtiff ifdsFirst fuel ifds with
    | ok w =>
      rw [h] at hm
      exact Bool.noConfusion hm
    | error e =>
      cases e with
      | mustBeBigTiff => rfl
      | otherError =>
        rw [h] at hm
        exact Bool.noConfusion hm
      | fuelExhausted =>
        rw [h] at hm
        exact Bool.noConfusion hm

/-- Witness for C1: a classic write of an IFD holding a 64-bit LONG8
value raises MustBeBigTiff on the first attempt, and write_tiff equals
the BigTIFF rerun and is itself free of the error outcome. -/
theorem C1_write_tiff_retry_witness :
    isMBBT (write_tiff_once false false false 2 [ifdLong8Ex]) = true ∧
    write_tiff false false false 2 [ifdLong8Ex] =
      write_tiff_once false true false 2 [ifdLong8Ex] ∧
    isMBBT (write_tiff false false false 2 [ifdLong8Ex]) = false := by
  refine ⟨by rfl, (C1_write_tiff_retry false false false 2 [ifdLong8Ex]).2.2 (by rfl),
    (C1_write_tiff_retry false false false 2 [ifdLong8Ex]).1⟩

/-! Auxiliary lemmas for the word-alignment analysis of the IFDs-first
layout. -/

theorem DPair.ifdSide_setIfd (p : DPair) (d : Dst) : (p.setIfd d).ifdSide = d := by
  cases p <;> rfl

theorem DPair.ifdSide_setData {p : DPair} (h : p.isDiff) (d : Dst) :
    (p.setData d).ifdSide = p.ifdSide := by
  cases p with
  | same d0 => exact h.elim
  | diff dd i => rfl

theorem DPair.isDiff_setIfd {p : DPair} (h : p.isDiff) (d : Dst) : (p.setIfd d).isDiff := by
  cases p with
  | same d0 => exact h.elim
  | diff dd i => exact trivial

theorem DPair.isDiff_setData {p : DPair} (h : p.isDiff) (d : Dst) : (p.setData d).isDiff := by
  cases p with
  | same d0 => exact h.elim
  | diff dd i => exact trivial

theorem DPair.ifdSide_writeI (p : DPair) (bs : List Nat) :
    (p.writeI bs).ifdSide = p.ifdSide.write bs := by
  rw [DPair.writeI, DPair.ifdSide_setIfd]

theorem DPair.ifdSide_seekISet (p : DPair) (n : Nat) :
    (p.seekISet n).ifdSide = p.ifdSide.seekSet n := by
  rw [DPair.seekISet, DPair.ifdSide_setIfd]

theorem DPair.ifdSide_seekIEnd (p : DPair) :
    p.seekIEnd.ifdSide = p.ifdSide.seekEnd := by
  rw [DPair.seekIEnd, DPair.ifdSide_setIfd]

theorem DPair.isDiff_writeI {p : DPair} (h : p.isDiff) (bs : List Nat) :
    (p.writeI bs).isDiff := DPair.isDiff_setIfd h _

theorem DPair.isDiff_seekISet {p : DPair} (h : p.isDiff) (n : Nat) :
    (p.seekISet n).isDiff := DPair.isDiff_setIfd h _

theorem DPair.isDiff_seekIEnd {p : DPair} (h : p.isDiff) :
    p.seekIEnd.isDiff := DPair.isDiff_setIfd h _

theorem Dst.len_le_write (d : Dst) (bs : List Nat) : d.len ≤ (d.write bs).len := by
  rw [Dst.len_write]
  omega

/-- The word-alignment padding of write_ifd leaves the position even and
never shrinks the destination. -/
theorem pad_tellI_even (p : DPair) :
    ((if p.tellI % 2 = 1 then p.writeI [0] else p).tellI) % 2 = 0 := by
  by_cases h : p.tellI % 2 = 1
  · rw [if_pos h]
    show (p.writeI [0]).ifdSide.tell % 2 = 0
    rw [DPair.ifdSide_writeI, Dst.tell_write]
    show (p.ifdSide.tell + 1) % 2 = 0
    have : p.ifdSide.tell % 2 = 1 := h
    omega
  · rw [if_neg h]
    show p.ifdSide.tell % 2 = 0
    have : ¬p.ifdSide.tell % 2 = 1 := h
    omega

theorem pad_inv (p : DPair) (hd : p.isDiff) (he : p.ifdSide.tell = p.ifdSide.len) :
    (if p.tellI % 2 = 1 then p.writeI [0] else p).isDiff ∧
    ((if p.tellI % 2 = 1 then p.writeI [0] else p).ifdSide.tell =
      (if p.tellI % 2 = 1 then p.writeI [0] else p).ifdSide.len) ∧
    p.ifdSide.len ≤ (if p.tellI % 2 = 1 then p.writeI [0] else p).ifdSide.len := by
  by_cases h : p.tellI % 2 = 1
  · rw [if_pos h]
    refine ⟨DPair.isDiff_writeI hd _, ?_, ?_⟩
    · rw [DPair.ifdSide_writeI, Dst.tell_write, Dst.len_write, he]
      omega
    · rw [DPair.ifdSide_writeI]
      exact Dst.len_le_write _ _
  · rw [if_neg h]
    exact ⟨hd, he, le_refl _⟩

theorem TagData.asInts_length (d : TagData) : d.asInts.length = d.len := by
  cases d with
  | vals xs => rfl
  | raw bs => exact List.length_map bs _

theorem TagData.len_of_vals (d : TagData) (l : List Int) (h : d.vals? = some l) :
    d.len = l.length := by
  cases d with
  | vals xs =>
    cases Option.some.inj h
    rfl
  | raw bs => exact Option.noConfusion h

/-- Inversion of a successful monadic bind over Except. -/
theorem bind_ok {α β : Type} {e : Except WErr α} {f : α → Except WErr β} {b : β}
    (h : Bind.bind e f = .ok b) : ∃ a, e = .ok a ∧ f a = .ok b := by
  cases e with
  | error err => exact Except.noConfusion h
  | ok a => exact ⟨a, rfl, h⟩

theorem orErr_ok {α : Type} {o : Option α} {a : α} (h : orErr o = .ok a) : o = some a := by
  cases o with
  | none => exact Except.noConfusion h
  | some x =>
    cases Except.ok.inj h
    rfl

theorem DefEnt_mono {tags : List (Nat × TagEntry)} {L L2 reclen reclen2 : Nat}
    {e : Nat × Deferred} (h : DefEnt tags L reclen e) (hL : L ≤ L2) (hr : reclen ≤ reclen2) :
    DefEnt tags L2 reclen2 e := by
  obtain ⟨h1, h2, h3⟩ := h
  refine ⟨h1, h2, fun dt hdt pw hpw => ?_⟩
  obtain ⟨ha, hb⟩ := h3 dt hdt pw hpw
  constructor
  · intro io hio
    obtain ⟨hp, hq⟩ := ha io hio
    refine ⟨hp, ?_⟩
    rcases hq with hq | hq
    · exact Or.inl (le_trans hq hr)
    · exact Or.inr hq
  · intro o ho
    obtain ⟨hp, hq⟩ := hb o ho
    refine ⟨hp, ?_⟩
    rcases hq with hq | hq
    · exact Or.inl (le_trans hq hL)
    · exact Or.inr hq

/-- The record patch of _writeDeferredData keeps the record length even
and never shrinks it, when the location is word-aligned and the patch
either fits or has even width. -/
theorem patchRec_parity (record bytes : List Nat) (io : Nat)
    (hrec : record.length % 2 = 0) (hio : io % 2 = 0)
    (hd : io + bytes.length ≤ record.length ∨ bytes.length % 2 = 0) :
    (record.take io ++ bytes ++ record.drop (io + bytes.length)).length % 2 = 0 ∧
    record.length ≤ (record.take io ++ bytes ++ record.drop (io + bytes.length)).length := by
  simp only [List.length_append, List.length_take, List.length_drop]
  rcases hd with hd | hd <;> omega

theorem insertTag_perm (x : Nat × TagEntry) (l : List (Nat × TagEntry)) :
    (insertTag x l).Perm (x :: l) := by
  induction l with
  | nil => exact List.Perm.refl _
  | cons y ys ih =>
    rw [insertTag]
    by_cases h : x.1 ≤ y.1
    · rw [if_pos h]
    · rw [if_neg h]
      exact List.Perm.trans (List.Perm.cons y ih) (List.Perm.swap x y ys)

theorem sortTags_perm (l : List (Nat × TagEntry)) : (sortTags l).Perm l := by
  induction l with
  | nil => exact List.Perm.refl _
  | cons x xs ih =>
    rw [sortTags]
    exact List.Perm.trans (insertTag_perm x (sortTags xs)) (List.Perm.cons x ih)

theorem foldl_write_inv (f : Int × Int → List Nat) (l : List (Int × Int)) :
    ∀ d : Dst, d.tell = d.len →
      (l.foldl (fun d bl => d.write (f bl)) d).tell =
        (l.foldl (fun d bl => d.write (f bl)) d).len ∧
      d.len ≤ (l.foldl (fun d bl => d.write (f bl)) d).len := by
  induction l with
  | nil => intro d hd; exact ⟨hd, le_refl _⟩
  | cons x xs ih =>
    intro d hd
    rw [List.foldl_cons]
    obtain ⟨ha, hb⟩ := ih (d.write (f x)) (Dst.atEnd_write d (f x) hd).1
    exact ⟨ha, le_trans (Dst.len_le_write d (f x)) hb⟩

theorem write_tag_data_inv (dest : Dst) (src : List Nat) (offsets lengths : List Int)
    (srclen : Int) (r : Dst × List Int)
    (h : write_tag_data dest src offsets lengths srclen = .ok r)
    (he : dest.tell = dest.len) :
    r.1.tell = r.1.len ∧ dest.len ≤ r.1.len ∧ r.2.length = offsets.length := by
  simp only [write_tag_data] at h
  by_cases hlen : offsets.length ≠ lengths.length
  · rw [if_pos hlen] at h
    exact Except.noConfusion h
  · rw [if_neg hlen] at h
    cases Except.ok.inj h
    obtain ⟨ha, hb⟩ := foldl_write_inv
      (fun bl => (src.drop bl.1.toNat).take bl.2.toNat) _ dest he
    refine ⟨ha, hb, ?_⟩
    rw [wtd_fold_len]
    exact List.length_replicate _ _

theorem pkOf_len (be : Bool) (tinfo : TagEntry) (count0 : Nat) (data1 : TagData)
    (dt2 : Nat) (pk : List Nat × Nat) (pw : Nat × Nat)
    (h : pkOf be tinfo count0 data1 dt2 = .ok pk) (hdp : dtPack dt2 = some pw) :
    pk.1.length = data1.len * pw.2 := by
  rw [pkOf, hdp] at h
  have h2 : (if pw.1 * (data1.len / pw.1) ≠ data1.len then
      (Except.error WErr.otherError : Except WErr (List Nat × Nat))
    else Except.ok (packMany be pw.2 data1.asInts, data1.len / pw.1)) = Except.ok pk := h
  by_cases hc : pw.1 * (data1.len / pw.1) ≠ data1.len
  · rw [if_pos hc] at h2
    exact Except.noConfusion h2
  · rw [if_neg hc] at h2
    cases Except.ok.inj h2
    show (packMany be pw.2 data1.asInts).length = data1.len * pw.2
    rw [packMany_length, TagData.asInts_length]

theorem mul_even_right (a b : Nat) (hb : b % 2 = 0) : (a * b) % 2 = 0 := by
  obtain ⟨k, rfl⟩ : ∃ k, b = 2 * k := ⟨b / 2, by omega⟩
  rw [mul_left_comm]
  exact Nat.mul_mod_right 2 (a * k)

theorem slotEmit_inv (be bigtiff : Bool) (tags : List (Nat × TagEntry)) (st : TLState)
    (tag : Nat) (isIfdTag : Bool) (ptrlen : Nat) (dp1 : DPair)
    (deferred1 : List (Nat × Deferred)) (dt2 : Nat) (pk : List Nat × Nat) (st2 : TLState)
    (h : slotEmit be bigtiff st tag isIfdTag ptrlen dp1 deferred1 dt2 pk = .ok st2)
    (hptr : ptrlen = 4 ∨ ptrlen = 8)
    (hdiff : dp1.isDiff)
    (hend : dp1.ifdSide.tell = dp1.ifdSide.len)
    (hrec : st.ifdrecord.length % 2 = 0)
    (hsub : ∀ e ∈ st.subifdPtrs, ptrEven e.2)
    (hdef : ∀ e ∈ deferred1, DefEnt tags dp1.ifdSide.len st.ifdrecord.length e)
    (hfresh : ∀ e ∈ deferred1, e.1 = tag → DefFresh e.2)
    (hdata : ∀ pw : Nat × Nat, dtPack dt2 = some pw → isIfdTag = false →
      ∀ e ∈ deferred1, e.1 = tag → e.2.data.length * pw.2 = pk.1.length)
    (hifd : isIfdTag = true → dt2 = 4 ∨ dt2 = 13 ∨ dt2 = 16 ∨ dt2 = 18) :
    st2.dp.isDiff ∧ st2.dp.ifdSide.tell = st2.dp.ifdSide.len ∧
    dp1.ifdSide.len ≤ st2.dp.ifdSide.len ∧
    st2.ifdrecord.length = st.ifdrecord.length + (4 + 2 * ptrlen) ∧
    (∀ e ∈ st2.subifdPtrs, ptrEven e.2) ∧
    (∀ e ∈ st2.deferred, DefEnt tags st2.dp.ifdSide.len st2.ifdrecord.length e) ∧
    (∀ e ∈ st2.deferred, e.1 ≠ tag → e ∈ deferred1) := by
  have hp2 : ptrlen % 2 = 0 := by rcases hptr with rfl | rfl <;> rfl
  have hpw2 : ∀ pw : Nat × Nat, dtPack dt2 = some pw → isIfdTag = true → pw.2 % 2 = 0 := by
    intro pw hdp hit
    rcases hifd hit with hv | hv | hv | hv <;>
      (rw [hv] at hdp; cases Option.some.inj hdp; rfl)
  have hnotifd : isIfdTag ≠ true → isIfdTag = false := by
    intro hni
    cases isIfdTag
    · rfl
    · exact absurd rfl hni
  simp only [slotEmit] at h
  by_cases hin : pk.1.length ≤ ptrlen
  · rw [if_pos hin] at h
    cases Except.ok.inj h
    refine ⟨hdiff, hend, le_refl _, ?_, ?_, ?_, ?_⟩
    · dsimp only
      simp only [List.length_append, List.length_replicate, packVal_length]
      omega
    · intro e he
      by_cases hii : isIfdTag = true
      · rw [if_pos hii] at he
        rcases List.mem_append.mp he with he | he
        · exact hsub e he
        · rcases List.mem_singleton.mp he with rfl
          constructor
          · dsimp only
            rw [Int.toNat_of_nonpos (by omega)]
          · dsimp only
            rw [neg_neg, Int.toNat_natCast]
            simp only [List.length_append, packVal_length]
            omega
      · rw [if_neg hii] at he
        exact hsub e he
    · intro e he
      dsimp only at he ⊢
      by_cases hupd : (defFind deferred1 tag).isSome
      · rw [if_pos hupd] at he
        rw [defUpdate] at he
        obtain ⟨e0, he0, heq⟩ := List.mem_map.mp he
        by_cases hk : e0.1 = tag
        · rw [if_pos hk] at heq
          cases heq
          obtain ⟨hw1, hw2, hw3⟩ := hdef e0 he0
          refine ⟨hw1, hw2, ?_⟩
          intro dt hdt pw hpw
          cases Option.some.inj hdt
          constructor
          · intro io hio
            cases Option.some.inj hio
            dsimp only
            constructor
            · simp only [List.length_append, packVal_length]
              omega
            · by_cases hit : isIfdTag = true
              · exact Or.inr (mul_even_right _ _ (hpw2 pw hpw hit))
              · refine Or.inl ?_
                have hbl := hdata pw hpw (hnotifd hit) e0 he0 hk
                rw [hbl]
                simp only [List.length_append, List.length_replicate, packVal_length]
                omega
          · intro o ho
            dsimp only at ho
            rw [(hfresh e0 he0 hk).2.2] at ho
            exact Option.noConfusion ho
        · rw [if_neg hk] at heq
          cases heq
          refine DefEnt_mono (hdef _ he0) (le_refl _) ?_
          simp only [List.length_append, List.length_replicate, packVal_length]
          omega
      · rw [if_neg hupd] at he
        refine DefEnt_mono (hdef e he) (le_refl _) ?_
        simp only [List.length_append, List.length_replicate, packVal_length]
        omega
    · intro e he hk
      dsimp only at he
      by_cases hupd : (defFind deferred1 tag).isSome
      · rw [if_pos hupd] at he
        rw [defUpdate] at he
        obtain ⟨e0, he0, heq⟩ := List.mem_map.mp he
        by_cases hk0 : e0.1 = tag
        · rw [if_pos hk0] at heq
          cases heq
          exact absurd hk0 hk
        · rw [if_neg hk0] at heq
          cases heq
          exact he0
      · rw [if_neg hupd] at he
        exact he
  · rw [if_neg hin] at h
    obtain ⟨u, hck, h⟩ := bind_ok h
    cases Except.ok.inj h
    obtain ⟨hd2, he2, hl2⟩ := pad_inv dp1 hdiff hend
    have htpos : (if dp1.tellI % 2 = 1 then dp1.writeI [0] else dp1).tellI % 2 = 0 :=
      pad_tellI_even dp1
    have hw := Dst.atEnd_write
      ((if dp1.tellI % 2 = 1 then dp1.writeI [0] else dp1).ifdSide) pk.1 he2
    have hdp3e :
        (((if dp1.tellI % 2 = 1 then dp1.writeI [0] else dp1).writeI pk.1)).ifdSide.tell =
        (((if dp1.tellI % 2 = 1 then dp1.writeI [0] else dp1).writeI pk.1)).ifdSide.len := by
      rw [DPair.ifdSide_writeI]
      exact hw.1
    have hdp3l :
        (((if dp1.tellI % 2 = 1 then dp1.writeI [0] else dp1).writeI pk.1)).ifdSide.len =
        (if dp1.tellI % 2 = 1 then dp1.writeI [0] else dp1).ifdSide.len + pk.1.length := by
      rw [DPair.ifdSide_writeI]
      exact hw.2
    have h3 : (if dp1.tellI % 2 = 1 then dp1.writeI [0] else dp1).tellI =
        (if dp1.tellI % 2 = 1 then dp1.writeI [0] else dp1).ifdSide.len := he2
    refine ⟨DPair.isDiff_writeI hd2 _, hdp3e, ?_, ?_, ?_, ?_, ?_⟩
    · rw [hdp3l]
      omega
    · dsimp only
      simp only [List.length_append, packVal_length]
      omega
    · intro e he
      by_cases hii : isIfdTag = true
      · rw [if_pos hii] at he
        rcases List.mem_append.mp he with he | he
        · exact hsub e he
        · rcases List.mem_singleton.mp he with rfl
          constructor
          · dsimp only
            rw [Int.toNat_natCast]
            exact htpos
          · dsimp only
            rw [Int.toNat_of_nonpos (by omega)]
      · rw [if_neg hii] at he
        exact hsub e he
    · intro e he
      dsimp only at he ⊢
      by_cases hupd : (defFind deferred1 tag).isSome
      · rw [if_pos hupd] at he
        rw [defUpdate] at he
        obtain ⟨e0, he0, heq⟩ := List.mem_map.mp he
        by_cases hk : e0.1 = tag
        · rw [if_pos hk] at heq
          cases heq
          obtain ⟨hw1, hw2, hw3⟩ := hdef e0 he0
          refine ⟨hw1, hw2, ?_⟩
          intro dt hdt pw hpw
          cases Option.some.inj hdt
          constructor
          · intro io hio
            dsimp only at hio
            rw [(hfresh e0 he0 hk).2.1] at hio
            exact Option.noConfusion hio
          · intro o ho
            cases Option.some.inj ho
            dsimp only
            constructor
            · exact htpos
            · by_cases hit : isIfdTag = true
              · exact Or.inr (mul_even_right _ _ (hpw2 pw hpw hit))
              · refine Or.inl ?_
                have hbl := hdata pw hpw (hnotifd hit) e0 he0 hk
                rw [hbl, hdp3l, h3]
        · rw [if_neg hk] at heq
          cases heq
          refine DefEnt_mono (hdef _ he0) ?_ ?_
          · rw [hdp3l]
            omega
          · simp only [List.length_append, packVal_length]
            omega
      · rw [if_neg hupd] at he
        refine DefEnt_mono (hdef e he) ?_ ?_
        · rw [hdp3l]
          omega
        · simp only [List.length_append, packVal_length]
          omega
    · intro e he hk
      dsimp only at he
      by_cases hupd : (defFind deferred1 tag).isSome
      · rw [if_pos hupd] at he
        rw [defUpdate] at he
        obtain ⟨e0, he0, heq⟩ := List.mem_map.mp he
        by_cases hk0 : e0.1 = tag
        · rw [if_pos hk0] at heq
          cases heq
          exact absurd hk0 hk
        · rw [if_neg hk0] at heq
          cases heq
          exact he0
      · rw [if_neg hupd] at he
        exact he

theorem processTagTail_inv (be bigtiff : Bool) (tags : List (Nat × TagEntry))
    (st : TLState) (tag : Nat) (tinfo : TagEntry) (isIfdTag : Bool) (count0 ptrlen : Nat)
    (dp1 : DPair) (data1 : TagData) (dt1v : Nat) (deferred1 : List (Nat × Deferred))
    (st2 : TLState)
    (h : processTagTail be bigtiff tags st tag tinfo isIfdTag count0 ptrlen
      dp1 data1 dt1v deferred1 = .ok st2)
    (hptr : ptrlen = 4 ∨ ptrlen = 8)
    (hdiff : dp1.isDiff)
    (hend : dp1.ifdSide.tell = dp1.ifdSide.len)
    (hrec : st.ifdrecord.length % 2 = 0)
    (hsub : ∀ e ∈ st.subifdPtrs, ptrEven e.2)
    (hdef : ∀ e ∈ deferred1, DefEnt tags dp1.ifdSide.len st.ifdrecord.length e)
    (hfresh : ∀ e ∈ deferred1, e.1 = tag → DefFresh e.2)
    (hcanon : isIfdTag = false → ∀ e ∈ deferred1, e.1 = tag → e.2.data.length = data1.len)
    (hifd : isIfdTag = true → dt1v = 4 ∨ dt1v = 13 ∨ dt1v = 16 ∨ dt1v = 18) :
    st2.dp.isDiff ∧ st2.dp.ifdSide.tell = st2.dp.ifdSide.len ∧
    dp1.ifdSide.len ≤ st2.dp.ifdSide.len ∧
    st2.ifdrecord.length = st.ifdrecord.length + (4 + 2 * ptrlen) ∧
    (∀ e ∈ st2.subifdPtrs, ptrEven e.2) ∧
    (∀ e ∈ st2.deferred, DefEnt tags st2.dp.ifdSide.len st2.ifdrecord.length e) ∧
    (∀ e ∈ st2.deferred, e.1 ≠ tag → e ∈ deferred1) := by
  simp only [processTagTail] at h
  obtain ⟨dt2, hadj, h⟩ := bind_ok h
  obtain ⟨pk, hpk, h⟩ := bind_ok h
  have hifd2 : isIfdTag = true → dt2 = 4 ∨ dt2 = 13 ∨ dt2 = 16 ∨ dt2 = 18 := by
    intro hit
    rcases hifd hit with hv | hv | hv | hv
    · rw [hv, adjustTaginfoForNonBigtiff, if_neg (by rintro ⟨hb, h1 | h1⟩ <;> omega)] at hadj
      exact Or.inl (Except.ok.inj hadj).symm
    · rw [hv, adjustTaginfoForNonBigtiff, if_neg (by rintro ⟨hb, h1 | h1⟩ <;> omega)] at hadj
      exact Or.inr (Or.inl (Except.ok.inj hadj).symm)
    · rw [hv, adjustTaginfoForNonBigtiff] at hadj
      by_cases hc : ¬bigtiff = true ∧ ((16 : Nat) = 16 ∨ (16 : Nat) = 17)
      · rw [if_pos hc] at hadj
        by_cases hc2 : (16 : Nat) = 16 ∧ tinfo.data.asInts.all (fun x => decide (x < 2 ^ 32)) = true
        · rw [if_pos hc2] at hadj
          exact Or.inl (Except.ok.inj hadj).symm
        · rw [if_neg hc2] at hadj
          rw [if_neg (by rintro ⟨h1, h2⟩; omega)] at hadj
          exact Except.noConfusion hadj
      · rw [if_neg hc] at hadj
        exact Or.inr (Or.inr (Or.inl (Except.ok.inj hadj).symm))
    · rw [hv, adjustTaginfoForNonBigtiff, if_neg (by rintro ⟨hb, h1 | h1⟩ <;> omega)] at hadj
      exact Or.inr (Or.inr (Or.inr (Except.ok.inj hadj).symm))
  have hdata : ∀ pw : Nat × Nat, dtPack dt2 = some pw → isIfdTag = false →
      ∀ e ∈ deferred1, e.1 = tag → e.2.data.length * pw.2 = pk.1.length := by
    intro pw hdp hif e he hk
    rw [hcanon hif e he hk]
    exact (pkOf_len be tinfo count0 data1 dt2 pk pw hpk hdp).symm
  exact slotEmit_inv be bigtiff tags st tag isIfdTag ptrlen dp1 deferred1 dt2 pk st2 h
    hptr hdiff hend hrec hsub hdef hfresh hdata hifd2

set_option maxHeartbeats 1000000 in
theorem processTag_inv (be bigtiff : Bool) (src : List Nat) (size : Nat)
    (tags : List (Nat × TagEntry)) (st : TLState) (tag : Nat) (st2 : TLState)
    (h : processTag be bigtiff true src size tags st tag = .ok st2)
    (hok : TLOK tags st)
    (hfresh : ∀ e ∈ st.deferred, e.1 = tag → DefFresh e.2) :
    TLOK tags st2 ∧ st.dp.ifdSide.len ≤ st2.dp.ifdSide.len ∧
    (∀ e ∈ st2.deferred, e.1 ≠ tag → e ∈ st.deferred ∨ DefFresh e.2) := by
  obtain ⟨hd0, he0, hr0, hs0, hdef0⟩ := hok
  have hptr : (if bigtiff = true then (8 : Nat) else 4) = 4 ∨
      (if bigtiff = true then (8 : Nat) else 4) = 8 := by
    cases bigtiff
    · exact Or.inl rfl
    · exact Or.inr rfl
  simp only [processTag] at h
  obtain ⟨tinfo, hti, h⟩ := bind_ok h
  have htf : tagsFind tags tag = some tinfo := orErr_ok hti
  by_cases hdv : dtValid tinfo.datatype = false
  · rw [if_pos hdv] at h
    exact Except.noConfusion h
  rw [if_neg hdv] at h
  have hcond : ∀ e : Nat × Deferred, e.1 = tag →
      ∀ tinfo2, tagsFind tags e.1 = some tinfo2 → tinfo2 = tinfo := by
    intro e hk tinfo2 ht2
    rw [hk, htf] at ht2
    exact (Option.some.inj ht2).symm
  have hifd : (tagIsIFDReg tag || decide (tinfo.datatype = 13) ||
        decide (tinfo.datatype = 18)) = true →
      (if (tagIsIFDReg tag || decide (tinfo.datatype = 13) ||
          decide (tinfo.datatype = 18)) = true then
        (if bigtiff = true then (18 : Nat) else 13) else tinfo.datatype) = 4 ∨
      (if (tagIsIFDReg tag || decide (tinfo.datatype = 13) ||
          decide (tinfo.datatype = 18)) = true then
        (if bigtiff = true then (18 : Nat) else 13) else tinfo.datatype) = 13 ∨
      (if (tagIsIFDReg tag || decide (tinfo.datatype = 13) ||
          decide (tinfo.datatype = 18)) = true then
        (if bigtiff = true then (18 : Nat) else 13) else tinfo.datatype) = 16 ∨
      (if (tagIsIFDReg tag || decide (tinfo.datatype = 13) ||
          decide (tinfo.datatype = 18)) = true then
        (if bigtiff = true then (18 : Nat) else 13) else tinfo.datatype) = 18 := by
    intro hit
    rw [if_pos hit]
    cases bigtiff
    · exact Or.inr (Or.inl rfl)
    · exact Or.inr (Or.inr (Or.inr rfl))
  have hifd2 : (tagIsIFDReg tag || decide (tinfo.datatype = 13) ||
        decide (tinfo.datatype = 18)) = true →
      (if bigtiff = true then (16 : Nat) else 4) = 4 ∨
      (if bigtiff = true then (16 : Nat) else 4) = 13 ∨
      (if bigtiff = true then (16 : Nat) else 4) = 16 ∨
      (if bigtiff = true then (16 : Nat) else 4) = 18 := by
    intro hit
    cases bigtiff
    · exact Or.inl rfl
    · exact Or.inr (Or.inr (Or.inl rfl))
  cases htb : tagBytecounts tag with
  | none =>
    rw [htb] at h
    obtain ⟨y, hy, h⟩ := bind_ok h
    cases Except.ok.inj hy
    dsimp only at h
    have hcanon : (tagIsIFDReg tag || decide (tinfo.datatype = 13) ||
          decide (tinfo.datatype = 18)) = false →
        ∀ e ∈ st.deferred, e.1 = tag →
        e.2.data.length = (if (tagIsIFDReg tag || decide (tinfo.datatype = 13) ||
          decide (tinfo.datatype = 18)) = true then
          TagData.vals (List.replicate tinfo.subifds.length 0) else tinfo.data).len := by
      intro hif e he hk
      rw [if_neg (by rw [hif]; exact Bool.false_ne_true)]
      exact (hdef0 e he).2.1 tinfo (by rw [hk]; exact htf) (by rw [hk]; exact hif)
    obtain ⟨c1, c2, c3, c4, c5, c6, c7⟩ :=
      processTagTail_inv be bigtiff tags st tag tinfo _ _ _ st.dp _ _ st.deferred st2 h
        hptr hd0 he0 hr0 hs0 hdef0 hfresh hcanon hifd
    refine ⟨⟨c1, c2, ?_, c5, c6⟩, c3, ?_⟩
    · rcases hptr with hp | hp <;> (rw [c4, hp]; omega)
    · intro e he hne
      exact Or.inl (c7 e he hne)
  | some bcspec =>
    rw [htb] at h
    obtain ⟨offsets, hofs, h⟩ := bind_ok h
    have horf := orErr_ok hofs
    cases bcspec with
    | inl partner =>
      obtain ⟨bcEntry, hbce, h⟩ := bind_ok h
      obtain ⟨bcData, hbcd, h⟩ := bind_ok h
      rw [if_pos trivial] at h
      obtain ⟨u, hck, h⟩ := bind_ok h
      obtain ⟨y, hy, h⟩ := bind_ok h
      cases Except.ok.inj hy
      dsimp only at h
      have hbcf : tagsFind tags partner = some bcEntry := orErr_ok hbce
      have hbcv : bcEntry.data.vals? = some bcData := orErr_ok hbcd
      have hdlen : (tagIsIFDReg tag || decide (tinfo.datatype = 13) ||
            decide (tinfo.datatype = 18)) = false →
          tinfo.data.len = offsets.length := by
        intro hif
        rw [if_neg (by rw [hif]; exact Bool.false_ne_true)] at horf
        exact TagData.len_of_vals _ _ horf
      have hdef1 : ∀ e ∈ st.deferred ++
          [(partner, ⟨partner, bcData, none, none, none, none⟩),
            (tag, ⟨tag, offsets, some (offsets, bcData), none, none, none⟩)],
          DefEnt tags st.dp.ifdSide.len st.ifdrecord.length e := by
        intro e he
        rcases List.mem_append.mp he with he | he
        · exact hdef0 e he
        rcases List.mem_cons.mp he with rfl | he
        · refine ⟨fun ow how => Option.noConfusion how, ?_, fun dt hdt => Option.noConfusion hdt⟩
          intro tinfo2 ht2 hcond2
          rw [hbcf] at ht2
          cases Option.some.inj ht2
          exact (TagData.len_of_vals _ _ hbcv).symm
        rcases List.mem_singleton.mp he with rfl
        refine ⟨?_, ?_, fun dt hdt => Option.noConfusion hdt⟩
        · intro ow how
          cases Option.some.inj how
          rfl
        · intro tinfo2 ht2 hcond2
          rw [htf] at ht2
          cases Option.some.inj ht2
          exact (hdlen hcond2).symm
      have hfresh1 : ∀ e ∈ st.deferred ++
          [(partner, ⟨partner, bcData, none, none, none, none⟩),
            (tag, ⟨tag, offsets, some (offsets, bcData), none, none, none⟩)],
          e.1 = tag → DefFresh e.2 := by
        intro e he hk
        rcases List.mem_append.mp he with he | he
        · exact hfresh e he hk
        rcases List.mem_cons.mp he with rfl | he
        · exact ⟨rfl, rfl, rfl⟩
        rcases List.mem_singleton.mp he with rfl
        exact ⟨rfl, rfl, rfl⟩
      have hcanon1 : (tagIsIFDReg tag || decide (tinfo.datatype = 13) ||
            decide (tinfo.datatype = 18)) = false →
          ∀ e ∈ st.deferred ++
            [(partner, ⟨partner, bcData, none, none, none, none⟩),
              (tag, ⟨tag, offsets, some (offsets, bcData), none, none, none⟩)],
          e.1 = tag → e.2.data.length = (TagData.vals offsets).len := by
        intro hif e he hk
        show e.2.data.length = offsets.length
        rcases List.mem_append.mp he with he | he
        · rw [(hdef0 e he).2.1 tinfo (by rw [hk]; exact htf) (by rw [hk]; exact hif)]
          exact hdlen hif
        rcases List.mem_cons.mp he with rfl | he
        · show bcData.length = offsets.length
          have hbe : bcEntry = tinfo := by
            have := hbcf
            rw [show partner = tag from hk, htf] at this
            exact (Option.some.inj this).symm
          rw [← TagData.len_of_vals _ _ hbcv, hbe]
          exact hdlen hif
        rcases List.mem_singleton.mp he with rfl
        rfl
      obtain ⟨c1, c2, c3, c4, c5, c6, c7⟩ :=
        processTagTail_inv be bigtiff tags st tag tinfo _ _ _ st.dp
          (TagData.vals offsets) _ _ st2 h
          hptr hd0 he0 hr0 hs0 hdef1 hfresh1 hcanon1 hifd2
      refine ⟨⟨c1, c2, ?_, c5, c6⟩, c3, ?_⟩
      · rcases hptr with hp | hp <;> (rw [c4, hp]; omega)
      · intro e he hne
        rcases List.mem_append.mp (c7 e he hne) with he2 | he2
        · exact Or.inl he2
        rcases List.mem_cons.mp he2 with rfl | he2
        · exact Or.inr ⟨rfl, rfl, rfl⟩
        rcases List.mem_singleton.mp he2 with rfl
        exact absurd rfl hne
    | inr lit =>
      obtain ⟨r, hwr, h⟩ := bind_ok h
      obtain ⟨u, hck, h⟩ := bind_ok h
      obtain ⟨y, hy, h⟩ := bind_ok h
      cases Except.ok.inj hy
      dsimp only at h
      obtain ⟨hre, hrl, hrn⟩ := write_tag_data_inv st.dp.ifdSide src offsets _ _ r hwr he0
      have hd1 : (st.dp.setIfd r.1).isDiff := DPair.isDiff_setIfd hd0 _
      have he1 : (st.dp.setIfd r.1).ifdSide.tell = (st.dp.setIfd r.1).ifdSide.len := by
        rw [DPair.ifdSide_setIfd]
        exact hre
      have hL1 : st.dp.ifdSide.len ≤ (st.dp.setIfd r.1).ifdSide.len := by
        rw [DPair.ifdSide_setIfd]
        exact hrl
      have hdef1 : ∀ e ∈ st.deferred,
          DefEnt tags (st.dp.setIfd r.1).ifdSide.len st.ifdrecord.length e :=
        fun e he => DefEnt_mono (hdef0 e he) hL1 (le_refl _)
      have hdlen : (tagIsIFDReg tag || decide (tinfo.datatype = 13) ||
            decide (tinfo.datatype = 18)) = false →
          tinfo.data.len = offsets.length := by
        intro hif
        rw [if_neg (by rw [hif]; exact Bool.false_ne_true)] at horf
        exact TagData.len_of_vals _ _ horf
      have hcanon1 : (tagIsIFDReg tag || decide (tinfo.datatype = 13) ||
            decide (tinfo.datatype = 18)) = false →
          ∀ e ∈ st.deferred, e.1 = tag → e.2.data.length = (TagData.vals r.2).len := by
        intro hif e he hk
        show e.2.data.length = r.2.length
        rw [(hdef0 e he).2.1 tinfo (by rw [hk]; exact htf) (by rw [hk]; exact hif),
          hdlen hif, hrn]
      obtain ⟨c1, c2, c3, c4, c5, c6, c7⟩ :=
        processTagTail_inv be bigtiff tags st tag tinfo _ _ _ (st.dp.setIfd r.1)
          (TagData.vals r.2) _ st.deferred st2 h
          hptr hd1 he1 hr0 hs0 hdef1 hfresh hcanon1 hifd2
      refine ⟨⟨c1, c2, ?_, c5, c6⟩, le_trans hL1 c3, ?_⟩
      · rcases hptr with hp | hp <;> (rw [c4, hp]; omega)
      · intro e he hne
        exact Or.inl (c7 e he hne)

theorem write_tag_data_len (dest : Dst) (src : List Nat) (offsets lengths : List Int)
    (srclen : Int) (r : Dst × List Int)
    (h : write_tag_data dest src offsets lengths srclen = .ok r) :
    r.2.length = offsets.length := by
  simp only [write_tag_data] at h
  by_cases hlen : offsets.length ≠ lengths.length
  · rw [if_pos hlen] at h
    exact Except.noConfusion h
  · rw [if_neg hlen] at h
    cases Except.ok.inj h
    rw [wtd_fold_len]
    exact List.length_replicate _ _

theorem DefEnt_data_congr (tags : List (Nat × TagEntry)) (L reclen : Nat) (k t0 : Nat)
    (data0 data2 : List Int) (w0 : Option (List Int × List Int)) (dt0 io0 o0 : Option Nat)
    (h : DefEnt tags L reclen (k, ⟨t0, data0, w0, dt0, io0, o0⟩))
    (hl : data2.length = data0.length) :
    DefEnt tags L reclen (k, ⟨t0, data2, w0, dt0, io0, o0⟩) := by
  obtain ⟨h1, h2, h3⟩ := h
  refine ⟨?_, ?_, ?_⟩
  · intro ow how
    exact (h1 ow how).trans hl.symm
  · intro t ht hc
    exact hl.trans (h2 t ht hc)
  · intro dt hdt pw hpw
    obtain ⟨ha, hb⟩ := h3 dt hdt pw hpw
    constructor
    · intro io hio
      obtain ⟨hp, hq⟩ := ha io hio
      refine ⟨hp, ?_⟩
      show io + data2.length * pw.2 ≤ reclen ∨ data2.length * pw.2 % 2 = 0
      rw [hl]
      exact hq
    · intro o ho
      obtain ⟨hp, hq⟩ := hb o ho
      refine ⟨hp, ?_⟩
      show o + data2.length * pw.2 ≤ L ∨ data2.length * pw.2 % 2 = 0
      rw [hl]
      exact hq

theorem processTags_inv (be bigtiff : Bool) (src : List Nat) (size : Nat)
    (tags : List (Nat × TagEntry)) :
    ∀ (l : List (Nat × TagEntry)) (st st2 : TLState),
      processTags be bigtiff true src size tags l st = .ok st2 →
      TLOK tags st →
      (l.map Prod.fst).Nodup →
      (∀ e ∈ st.deferred, e.1 ∈ l.map Prod.fst → DefFresh e.2) →
      TLOK tags st2 ∧ st.dp.ifdSide.len ≤ st2.dp.ifdSide.len := by
  intro l
  induction l with
  | nil =>
    intro st st2 h hok _ _
    cases Except.ok.inj h
    exact ⟨hok, le_refl _⟩
  | cons e rest ih =>
    intro st st2 h hok hnd hfr
    obtain ⟨stm, hm, h⟩ := bind_ok h
    have hfr1 : ∀ d ∈ st.deferred, d.1 = e.1 → DefFresh d.2 := by
      intro d hd hk
      exact hfr d hd (by rw [List.map_cons, hk]; exact List.mem_cons_self _ _)
    obtain ⟨hok2, hL, htrack⟩ := processTag_inv be bigtiff src size tags st e.1 stm hm hok hfr1
    rw [List.map_cons] at hnd
    have hnd2 := (List.nodup_cons.mp hnd).2
    have hx : e.1 ∉ rest.map Prod.fst := (List.nodup_cons.mp hnd).1
    have hfr2 : ∀ d ∈ stm.deferred, d.1 ∈ rest.map Prod.fst → DefFresh d.2 := by
      intro d hd hmem
      have hne : d.1 ≠ e.1 := fun hEq => hx (hEq ▸ hmem)
      rcases htrack d hd hne with hold | hfrsh
      · exact hfr d hold (by rw [List.map_cons]; exact List.mem_cons_of_mem _ hmem)
      · exact hfrsh
    obtain ⟨hok3, hL2⟩ := ih stm st2 h hok2 hnd2 hfr2
    exact ⟨hok3, le_trans hL hL2⟩

theorem runDeferredWrites_inv (src : List Nat) (size : Nat)
    (tags : List (Nat × TagEntry)) (L reclen : Nat) :
    ∀ (l : List (Nat × Deferred)) (dp : DPair) (out : DPair × List (Nat × Deferred)),
      runDeferredWrites src size dp l = .ok out →
      dp.isDiff →
      (∀ e ∈ l, DefEnt tags L reclen e) →
      out.1.isDiff ∧ out.1.ifdSide = dp.ifdSide ∧
        (∀ e ∈ out.2, DefEnt tags L reclen e) := by
  intro l
  induction l with
  | nil =>
    intro dp out h hd hdef
    cases Except.ok.inj h
    exact ⟨hd, rfl, fun e he => absurd he (List.not_mem_nil e)⟩
  | cons p rest ih =>
    intro dp out h hd hdef
    obtain ⟨k, d⟩ := p
    obtain ⟨t0, dd0, w0, dt0, io0, o0⟩ := d
    cases w0 with
    | some ow =>
      obtain ⟨r, hwt, h⟩ := bind_ok h
      obtain ⟨rec2, hrec2, h⟩ := bind_ok h
      cases Except.ok.inj h
      obtain ⟨hd2, hside, hdef2⟩ := ih (dp.setData r.1) rec2 hrec2
        (DPair.isDiff_setData hd _) (fun e he => hdef e (List.mem_cons_of_mem _ he))
      refine ⟨hd2, hside.trans (DPair.ifdSide_setData hd _), ?_⟩
      intro e he
      rcases List.mem_cons.mp he with rfl | he
      · have hhead := hdef _ (List.mem_cons_self _ _)
        have hwlen : ow.1.length = dd0.length := hhead.1 ow rfl
        have hrlen : r.2.length = ow.1.length := write_tag_data_len _ _ _ _ _ _ hwt
        exact DefEnt_data_congr tags L reclen k t0 dd0 r.2 (some ow) dt0 io0 o0 hhead
          (hrlen.trans hwlen)
      · exact hdef2 e he
    | none =>
      obtain ⟨rec2, hrec2, h⟩ := bind_ok h
      cases Except.ok.inj h
      obtain ⟨hd2, hside, hdef2⟩ := ih dp rec2 hrec2 hd
        (fun e he => hdef e (List.mem_cons_of_mem _ he))
      refine ⟨hd2, hside, ?_⟩
      intro e he
      rcases List.mem_cons.mp he with rfl | he
      · exact hdef _ (List.mem_cons_self _ _)
      · exact hdef2 e he

theorem pad_after_patch (p : DPair) (hd : p.isDiff)
    (ht : p.ifdSide.tell ≤ p.ifdSide.len)
    (hl2 : p.ifdSide.len = p.ifdSide.tell ∨ p.ifdSide.len % 2 = 0) :
    (if p.tellI % 2 = 1 then p.writeI [0] else p).isDiff ∧
    p.ifdSide.len ≤ (if p.tellI % 2 = 1 then p.writeI [0] else p).ifdSide.len ∧
    (if p.tellI % 2 = 1 then p.writeI [0] else p).ifdSide.len % 2 = 0 := by
  by_cases hp : p.tellI % 2 = 1
  · rw [if_pos hp]
    refine ⟨DPair.isDiff_writeI hd _, ?_, ?_⟩
    · rw [DPair.ifdSide_writeI]
      exact Dst.len_le_write _ _
    · rw [DPair.ifdSide_writeI, Dst.len_write]
      have hp2 : p.ifdSide.tell % 2 = 1 := hp
      rcases hl2 with h2 | h2 <;> (simp only [List.length_cons, List.length_nil]; omega)
  · rw [if_neg hp]
    refine ⟨hd, le_refl _, ?_⟩
    have hp2 : ¬p.ifdSide.tell % 2 = 1 := hp
    rcases hl2 with h2 | h2 <;> omega

theorem patchDeferred_inv (be bigtiff : Bool) (tags : List (Nat × TagEntry)) :
    ∀ (l : List (Nat × Deferred)) (dp : DPair) (record : List Nat)
      (out : DPair × List Nat),
      patchDeferred be bigtiff dp record l = .ok out →
      dp.isDiff →
      record.length % 2 = 0 →
      (∀ e ∈ l, DefEnt tags dp.ifdSide.len record.length e) →
      out.1.isDiff ∧ out.1.ifdSide.tell = dp.ifdSide.tell ∧
      dp.ifdSide.len ≤ out.1.ifdSide.len ∧
      (out.1.ifdSide.len = dp.ifdSide.len ∨ out.1.ifdSide.len % 2 = 0) ∧
      out.2.length % 2 = 0 ∧ record.length ≤ out.2.length := by
  intro l
  induction l with
  | nil =>
    intro dp record out h hd hrec hdef
    cases Except.ok.inj h
    exact ⟨hd, rfl, le_refl _, Or.inl rfl, hrec, le_refl _⟩
  | cons p rest ih =>
    intro dp record out h hd hrec hdef
    obtain ⟨k, d⟩ := p
    obtain ⟨t0, dd0, w0, dt0, io0, o0⟩ := d
    obtain ⟨u, hck, h⟩ := bind_ok h
    obtain ⟨dt, hdt, h⟩ := bind_ok h
    obtain ⟨pw, hpw, h⟩ := bind_ok h
    have hdt0 : (dt0 : Option Nat) = some dt := orErr_ok hdt
    have hpw0 : dtPack dt = some pw := orErr_ok hpw
    by_cases hc : pw.1 * (dd0.length / pw.1) ≠ dd0.length
    · rw [if_pos hc] at h
      exact Except.noConfusion h
    rw [if_neg hc] at h
    have hD := hdef _ (List.mem_cons_self _ _)
    obtain ⟨ha, hb⟩ := hD.2.2 dt hdt0 pw hpw0
    have hblen : (packMany be pw.2 dd0).length = dd0.length * pw.2 := packMany_length _ _ _
    cases io0 with
    | some io =>
      obtain ⟨hioe, hiob⟩ := ha io rfl
      have hpat := patchRec_parity record (packMany be pw.2 dd0) io hrec hioe
        (by rw [hblen]; exact hiob)
      obtain ⟨c1, c2, c3, c4, c5, c6⟩ := ih dp _ out h hd hpat.1
        (fun e he => DefEnt_mono (hdef e (List.mem_cons_of_mem _ he)) (le_refl _) hpat.2)
      exact ⟨c1, c2, c3, c4, c5, le_trans hpat.2 c6⟩
    | none =>
      cases o0 with
      | none => exact Except.noConfusion h
      | some o =>
        obtain ⟨hoe, hob⟩ := hb o rfl
        dsimp only at hob
        have hchain : (((dp.seekISet o).writeI (packMany be pw.2 dd0)).seekISet dp.tellI).ifdSide
            = ((dp.ifdSide.seekSet o).write (packMany be pw.2 dd0)).seekSet dp.tellI := by
          rw [DPair.ifdSide_seekISet, DPair.ifdSide_writeI, DPair.ifdSide_seekISet]
        have hd2 : (((dp.seekISet o).writeI (packMany be pw.2 dd0)).seekISet dp.tellI).isDiff :=
          DPair.isDiff_seekISet (DPair.isDiff_writeI (DPair.isDiff_seekISet hd o) _) _
        have htell2 : (((dp.seekISet o).writeI (packMany be pw.2 dd0)).seekISet
            dp.tellI).ifdSide.tell = dp.ifdSide.tell := by
          rw [hchain, Dst.tell_seekSet]
          rfl
        have hlen2 : (((dp.seekISet o).writeI (packMany be pw.2 dd0)).seekISet
            dp.tellI).ifdSide.len =
            max dp.ifdSide.len (o + (packMany be pw.2 dd0).length) := by
          rw [hchain, Dst.len_seekSet, Dst.len_write, Dst.len_seekSet, Dst.tell_seekSet]
        have hmono : dp.ifdSide.len ≤
            (((dp.seekISet o).writeI (packMany be pw.2 dd0)).seekISet dp.tellI).ifdSide.len := by
          rw [hlen2]
          omega
        obtain ⟨c1, c2, c3, c4, c5, c6⟩ := ih _ record out h hd2 hrec
          (fun e he => DefEnt_mono (hdef e (List.mem_cons_of_mem _ he)) hmono (le_refl _))
        refine ⟨c1, c2.trans htell2, le_trans hmono c3, ?_, c5, c6⟩
        rcases hob with hbound | heven
        · rcases c4 with c4 | c4
          · refine Or.inl ?_
            rw [c4, hlen2]
            omega
          · exact Or.inr c4
        · rcases c4 with c4 | c4
          · rw [c4, hlen2]
            omega
          · exact Or.inr c4

theorem writeChain_inv (wf : Ifd → Prop)
    (w : DPair → Ifd → Nat → Except WErr (DPair × Nat × List Nat)) (hw : WSpec wf w) :
    ∀ (l : List Ifd) (dp : DPair) (p : Nat) (r : DPair × Nat × List Nat),
      writeChain w l dp p = .ok r → (∀ i ∈ l, wf i) → IOk dp → p % 2 = 0 →
      IOk r.1 ∧ r.2.1 % 2 = 0 ∧ (∀ q ∈ r.2.2, q % 2 = 0) := by
  intro l
  induction l with
  | nil =>
    intro dp p r h _ hok hp
    cases Except.ok.inj h
    exact ⟨hok, hp, fun q hq => absurd hq (List.not_mem_nil q)⟩
  | cons i rest ih =>
    intro dp p r h hwf hok hp
    obtain ⟨r1, h1, h⟩ := bind_ok h
    obtain ⟨r2, h2, h⟩ := bind_ok h
    cases Except.ok.inj h
    obtain ⟨ho1, hn1, hp1⟩ := hw dp i p r1 h1 (hwf i (List.mem_cons_self _ _)) hok hp
    obtain ⟨ho2, hn2, hp2⟩ := ih r1.1 r1.2.1 r2 h2
      (fun j hj => hwf j (List.mem_cons_of_mem _ hj)) ho1 hn1
    refine ⟨ho2, hn2, ?_⟩
    intro q hq
    rcases List.mem_append.mp hq with hq | hq
    · exact hp1 q hq
    · exact hp2 q hq

theorem writeChains_inv (wf : Ifd → Prop)
    (w : DPair → Ifd → Nat → Except WErr (DPair × Nat × List Nat)) (hw : WSpec wf w)
    (tagdatalen : Nat) (htd : tagdatalen % 2 = 0) :
    ∀ (l : List (List Ifd)) (dp : DPair) (p : Nat) (r : DPair × List Nat),
      writeChains w tagdatalen l dp p = .ok r → (∀ c ∈ l, ∀ i ∈ c, wf i) →
      IOk dp → p % 2 = 0 →
      IOk r.1 ∧ (∀ q ∈ r.2, q % 2 = 0) := by
  intro l
  induction l with
  | nil =>
    intro dp p r h _ hok hp
    cases Except.ok.inj h
    exact ⟨hok, fun q hq => absurd hq (List.not_mem_nil q)⟩
  | cons c rest ih =>
    intro dp p r h hwf hok hp
    obtain ⟨r1, h1, h⟩ := bind_ok h
    obtain ⟨r2, h2, h⟩ := bind_ok h
    cases Except.ok.inj h
    obtain ⟨ho1, hn1, hp1⟩ := writeChain_inv wf w hw c dp p r1 h1
      (hwf c (List.mem_cons_self _ _)) hok hp
    obtain ⟨ho2, hp2⟩ := ih r1.1 (p + tagdatalen) r2 h2
      (fun c2 hc2 => hwf c2 (List.mem_cons_of_mem _ hc2)) ho1 (by omega)
    refine ⟨ho2, ?_⟩
    intro q hq
    rcases List.mem_append.mp hq with hq | hq
    · exact hp1 q hq
    · exact hp2 q hq

theorem writeSubTags_inv (wf : Ifd → Prop)
    (w : DPair → Ifd → Nat → Except WErr (DPair × Nat × List Nat)) (hw : WSpec wf w)
    (tagdatalen : Nat) (htd : tagdatalen % 2 = 0) (tags : List (Nat × TagEntry))
    (parentPos : Nat) (hpar : parentPos % 2 = 0)
    (htag : ∀ (t : Nat) (entry : TagEntry), tagsFind tags t = some entry →
      ∀ c ∈ entry.subifds, ∀ i ∈ c, wf i) :
    ∀ (l : List (Nat × Int)) (dp : DPair) (r : DPair × List Nat),
      writeSubTags w tagdatalen tags parentPos l dp = .ok r →
      (∀ e ∈ l, ptrEven e.2) → IOk dp →
      IOk r.1 ∧ (∀ q ∈ r.2, q % 2 = 0) := by
  intro l
  induction l with
  | nil =>
    intro dp r h _ hok
    cases Except.ok.inj h
    exact ⟨hok, fun q hq => absurd hq (List.not_mem_nil q)⟩
  | cons e rest ih =>
    intro dp r h hpe hok
    obtain ⟨tag, sp⟩ := e
    obtain ⟨entry, hent, h⟩ := bind_ok h
    obtain ⟨r1, h1, h⟩ := bind_ok h
    obtain ⟨r2, h2, h⟩ := bind_ok h
    cases Except.ok.inj h
    have hspe := hpe _ (List.mem_cons_self _ _)
    have hpeven : (if sp < 0 then parentPos + (-sp).toNat else sp.toNat) % 2 = 0 := by
      by_cases hsp : sp < 0
      · rw [if_pos hsp]
        have := hspe.2
        omega
      · rw [if_neg hsp]
        exact hspe.1
    obtain ⟨ho1, hp1⟩ := writeChains_inv wf w hw tagdatalen htd entry.subifds dp _ r1 h1
      (htag tag entry (orErr_ok hent)) hok hpeven
    obtain ⟨ho2, hp2⟩ := ih r1.1 r2 h2 (fun d hd => hpe d (List.mem_cons_of_mem _ hd)) ho1
    refine ⟨ho2, ?_⟩
    intro q hq
    rcases List.mem_append.mp hq with hq | hq
    · exact hp1 q hq
    · exact hp2 q hq

theorem writeIfdLoop_inv (wf : Ifd → Prop)
    (w : DPair → Ifd → Nat → Except WErr (DPair × Nat × List Nat)) (hw : WSpec wf w) :
    ∀ (l : List Ifd) (dp : DPair) (ptr : Nat) (r : DPair × List Nat),
      writeIfdLoop w l dp ptr = .ok r → (∀ i ∈ l, wf i) → IOk dp → ptr % 2 = 0 →
      IOk r.1 ∧ (∀ q ∈ r.2, q % 2 = 0) := by
  intro l
  induction l with
  | nil =>
    intro dp ptr r h _ hok _
    cases Except.ok.inj h
    exact ⟨hok, fun q hq => absurd hq (List.not_mem_nil q)⟩
  | cons i rest ih =>
    intro dp ptr r h hwf hok hp
    obtain ⟨r1, h1, h⟩ := bind_ok h
    obtain ⟨r2, h2, h⟩ := bind_ok h
    cases Except.ok.inj h
    obtain ⟨ho1, hn1, hp1⟩ := hw dp i ptr r1 h1 (hwf i (List.mem_cons_self _ _)) hok hp
    obtain ⟨ho2, hp2⟩ := ih r1.1 r1.2.1 r2 h2
      (fun j hj => hwf j (List.mem_cons_of_mem _ hj)) ho1 hn1
    refine ⟨ho2, ?_⟩
    intro q hq
    rcases List.mem_append.mp hq with hq | hq
    · exact hp1 q hq
    · exact hp2 q hq

theorem writeChain_pos (w : DPair → Ifd → Nat → Except WErr (DPair × Nat × List Nat))
    (hw : ∀ dp ifd ptr r, w dp ifd ptr = .ok r → ∀ p ∈ r.2.2, p % 2 = 0) :
    ∀ (l : List Ifd) (dp : DPair) (p : Nat) (r : DPair × Nat × List Nat),
      writeChain w l dp p = .ok r → ∀ q ∈ r.2.2, q % 2 = 0 := by
  intro l
  induction l with
  | nil =>
    intro dp p r h q hq
    cases Except.ok.inj h
    exact absurd hq (List.not_mem_nil q)
  | cons i rest ih =>
    intro dp p r h q hq
    obtain ⟨r1, h1, h⟩ := bind_ok h
    obtain ⟨r2, h2, h⟩ := bind_ok h
    cases Except.ok.inj h
    rcases List.mem_append.mp hq with hq | hq
    · exact hw dp i p r1 h1 q hq
    · exact ih r1.1 r1.2.1 r2 h2 q hq

theorem writeChains_pos (w : DPair → Ifd → Nat → Except WErr (DPair × Nat × List Nat))
    (hw : ∀ dp ifd ptr r, w dp ifd ptr = .ok r → ∀ p ∈ r.2.2, p % 2 = 0)
    (tagdatalen : Nat) :
    ∀ (l : List (List Ifd)) (dp : DPair) (p : Nat) (r : DPair × List Nat),
      writeChains w tagdatalen l dp p = .ok r → ∀ q ∈ r.2, q % 2 = 0 := by
  intro l
  induction l with
  | nil =>
    intro dp p r h q hq
    cases Except.ok.inj h
    exact absurd hq (List.not_mem_nil q)
  | cons c rest ih =>
    intro dp p r h q hq
    obtain ⟨r1, h1, h⟩ := bind_ok h
    obtain ⟨r2, h2, h⟩ := bind_ok h
    cases Except.ok.inj h
    rcases List.mem_append.mp hq with hq | hq
    · exact writeChain_pos w hw c dp p r1 h1 q hq
    · exact ih r1.1 (p + tagdatalen) r2 h2 q hq

theorem writeSubTags_pos (w : DPair → Ifd → Nat → Except WErr (DPair × Nat × List Nat))
    (hw : ∀ dp ifd ptr r, w dp ifd ptr = .ok r → ∀ p ∈ r.2.2, p % 2 = 0)
    (tagdatalen : Nat) (tags : List (Nat × TagEntry)) (parentPos : Nat) :
    ∀ (l : List (Nat × Int)) (dp : DPair) (r : DPair × List Nat),
      writeSubTags w tagdatalen tags parentPos l dp = .ok r → ∀ q ∈ r.2, q % 2 = 0 := by
  intro l
  induction l with
  | nil =>
    intro dp r h q hq
    cases Except.ok.inj h
    exact absurd hq (List.not_mem_nil q)
  | cons e rest ih =>
    intro dp r h q hq
    obtain ⟨tag, sp⟩ := e
    obtain ⟨entry, hent, h⟩ := bind_ok h
    obtain ⟨r1, h1, h⟩ := bind_ok h
    obtain ⟨r2, h2, h⟩ := bind_ok h
    cases Except.ok.inj h
    rcases List.mem_append.mp hq with hq | hq
    · exact writeChains_pos w hw tagdatalen entry.subifds dp _ r1 h1 q hq
    · exact ih r1.1 r2 h2 q hq

theorem writeIfdLoop_pos (w : DPair → Ifd → Nat → Except WErr (DPair × Nat × List Nat))
    (hw : ∀ dp ifd ptr r, w dp ifd ptr = .ok r → ∀ p ∈ r.2.2, p % 2 = 0) :
    ∀ (l : List Ifd) (dp : DPair) (ptr : Nat) (r : DPair × List Nat),
      writeIfdLoop w l dp ptr = .ok r → ∀ q ∈ r.2, q % 2 = 0 := by
  intro l
  induction l with
  | nil =>
    intro dp ptr r h q hq
    cases Except.ok.inj h
    exact absurd hq (List.not_mem_nil q)
  | cons i rest ih =>
    intro dp ptr r h q hq
    obtain ⟨r1, h1, h⟩ := bind_ok h
    obtain ⟨r2, h2, h⟩ := bind_ok h
    cases Except.ok.inj h
    rcases List.mem_append.mp hq with hq | hq
    · exact hw dp i ptr r1 h1 q hq
    · exact ih r1.1 r1.2.1 r2 h2 q hq

theorem write_ifd_pos (be bigtiff : Bool) :
    ∀ (fuel : Nat) (dp : DPair) (ifd : Ifd) (ptr : Nat) (r : DPair × Nat × List Nat),
      write_ifd be bigtiff false fuel dp ifd ptr = .ok r → ∀ p ∈ r.2.2, p % 2 = 0 := by
  intro fuel
  induction fuel with
  | zero =>
    intro dp ifd ptr r h
    exact Except.noConfusion h
  | succ n ih =>
    intro dp ifd ptr r h
    simp only [write_ifd, if_false] at h
    obtain ⟨stt, hpt, h⟩ := bind_ok h
    obtain ⟨rdw, hrd, h⟩ := bind_ok h
    obtain ⟨pd, hpd, h⟩ := bind_ok h
    obtain ⟨u, hck, h⟩ := bind_ok h
    obtain ⟨rst, hst, h⟩ := bind_ok h
    cases Except.ok.inj h
    intro p hp
    rcases List.mem_cons.mp hp with rfl | hp
    · exact pad_tellI_even pd.1
    · exact writeSubTags_pos _ (fun a b c rr hh => ih a b c rr hh) _ _ _ _ _ _ hst p hp

theorem TLOK_init (tags : List (Nat × TagEntry)) (dp : DPair) (bs rec0 : List Nat)
    (hd : dp.isDiff) (he : dp.ifdSide.tell = dp.ifdSide.len) (hr : rec0.length % 2 = 0) :
    TLOK tags ⟨dp.writeI bs, rec0, [], []⟩ := by
  refine ⟨DPair.isDiff_writeI hd _, ?_, hr, ?_, ?_⟩
  · show (dp.writeI bs).ifdSide.tell = (dp.writeI bs).ifdSide.len
    rw [DPair.ifdSide_writeI]
    exact (Dst.atEnd_write _ _ he).1
  · intro e he2
    exact absurd he2 (List.not_mem_nil e)
  · intro e he2
    exact absurd he2 (List.not_mem_nil e)

theorem chain_tellI (q : DPair) (ptr ipos : Nat) (bs1 rec2 : List Nat) :
    ((((q.seekISet ptr).writeI bs1).seekISet ipos).writeI rec2).tellI =
      ipos + rec2.length := by
  show ((((q.seekISet ptr).writeI bs1).seekISet ipos).writeI rec2).ifdSide.tell =
    ipos + rec2.length
  rw [DPair.ifdSide_writeI, Dst.tell_write, DPair.ifdSide_seekISet, Dst.tell_seekSet]

theorem final_chain_IOk (q : DPair) (ptr ipos : Nat) (bs1 rec2 bs2 : List Nat)
    (hd : q.isDiff) (hlen : q.ifdSide.len % 2 = 0)
    (hptr : (ptr + bs1.length) % 2 = 0) (hipos : (ipos + rec2.length) % 2 = 0)
    (hbs2 : bs2.length % 2 = 0) :
    IOk ((((((q.seekISet ptr).writeI bs1).seekISet ipos).writeI rec2).writeI bs2).seekIEnd) := by
  have hA : ((q.seekISet ptr).writeI bs1).ifdSide.len =
      max q.ifdSide.len (ptr + bs1.length) := by
    rw [DPair.ifdSide_writeI, Dst.len_write, DPair.ifdSide_seekISet, Dst.len_seekSet,
      Dst.tell_seekSet]
  have hC : ((((q.seekISet ptr).writeI bs1).seekISet ipos).writeI rec2).ifdSide.len =
      max (max q.ifdSide.len (ptr + bs1.length)) (ipos + rec2.length) := by
    rw [DPair.ifdSide_writeI, Dst.len_write, DPair.ifdSide_seekISet, Dst.len_seekSet,
      Dst.tell_seekSet, hA]
  have hCt : ((((q.seekISet ptr).writeI bs1).seekISet ipos).writeI rec2).ifdSide.tell =
      ipos + rec2.length := chain_tellI q ptr ipos bs1 rec2
  have hD : (((((q.seekISet ptr).writeI bs1).seekISet ipos).writeI rec2).writeI
      bs2).ifdSide.len =
      max (max (max q.ifdSide.len (ptr + bs1.length)) (ipos + rec2.length))
        (ipos + rec2.length + bs2.length) := by
    rw [DPair.ifdSide_writeI, Dst.len_write, hC, hCt]
  refine ⟨?_, ?_, ?_⟩
  · exact DPair.isDiff_seekIEnd (DPair.isDiff_writeI (DPair.isDiff_writeI
      (DPair.isDiff_seekISet (DPair.isDiff_writeI (DPair.isDiff_seekISet hd _) _) _) _) _)
  · rw [DPair.ifdSide_seekIEnd, Dst.tell_seekEnd, Dst.len_seekEnd]
  · rw [DPair.ifdSide_seekIEnd, Dst.len_seekEnd, hD]
    omega

set_option maxHeartbeats 2000000 in
theorem write_ifd_inv (be bigtiff : Bool) :
    ∀ fuel : Nat, WSpec (fun i => WFb fuel i = true)
      (fun dp ifd ptr => write_ifd be bigtiff true fuel dp ifd ptr) := by
  intro fuel
  induction fuel with
  | zero =>
    intro dp ifd ptr r h _ _ _
    exact Except.noConfusion h
  | succ n ih =>
    intro dp ifd ptr r h hwf hok hp
    obtain ⟨hd0, he0, hl0⟩ := hok
    have hptrlen : (if bigtiff = true then (8 : Nat) else 4) % 2 = 0 := by
      cases bigtiff <;> rfl
    have hipos : dp.tellI % 2 = 0 := by
      show dp.ifdSide.tell % 2 = 0
      rw [he0]
      exact hl0
    rw [WFb] at hwf
    rw [Bool.and_eq_true] at hwf
    have hnd : (ifd.tags.map Prod.fst).Nodup := of_decide_eq_true hwf.1
    have hall := hwf.2
    have htag : ∀ (t : Nat) (entry : TagEntry), tagsFind ifd.tags t = some entry →
        ∀ c ∈ entry.subifds, ∀ i ∈ c, WFb n i = true := by
      intro t entry hfind c hc i hci
      rw [tagsFind] at hfind
      obtain ⟨a, hfa, ha2⟩ := Option.map_eq_some'.mp hfind
      have hmem := List.mem_of_find?_eq_some hfa
      have h1 := List.all_eq_true.mp hall a hmem
      have h2 := List.all_eq_true.mp h1 c (by rw [ha2]; exact hc)
      exact List.all_eq_true.mp h2 i hci
    have hrec0 : (packVal be (if bigtiff = true then (8 : Nat) else 2)
        (ifd.tags.length : Int)).length % 2 = 0 := by
      rw [packVal_length]
      cases bigtiff <;> rfl
    simp only [write_ifd, if_true] at h
    obtain ⟨stt, hpt, h⟩ := bind_ok h
    obtain ⟨rdw, hrd, h⟩ := bind_ok h
    obtain ⟨pd, hpd, h⟩ := bind_ok h
    obtain ⟨u, hck, h⟩ := bind_ok h
    obtain ⟨rst, hst, h⟩ := bind_ok h
    cases Except.ok.inj h
    obtain ⟨hokS, hLS⟩ := processTags_inv be bigtiff ifd.src ifd.size ifd.tags _ _ stt hpt
      (TLOK_init ifd.tags dp _ _ hd0 he0 hrec0)
      (((sortTags_perm ifd.tags).map Prod.fst).nodup_iff.mpr hnd)
      (fun e he2 _ => absurd he2 (List.not_mem_nil e))
    obtain ⟨hdS, heS, hrS, hsS, hdefS⟩ := hokS
    obtain ⟨hdR, hsideR, hdefR⟩ := runDeferredWrites_inv ifd.src ifd.size ifd.tags
      stt.dp.ifdSide.len stt.ifdrecord.length stt.deferred stt.dp rdw hrd hdS hdefS
    have hLeq : rdw.1.ifdSide.len = stt.dp.ifdSide.len := congrArg Dst.len hsideR
    have hTeq : rdw.1.ifdSide.tell = stt.dp.ifdSide.tell := congrArg Dst.tell hsideR
    obtain ⟨hdP, htP, hlP, hdisjP, hrecP, hrlenP⟩ := patchDeferred_inv be bigtiff ifd.tags
      rdw.2 rdw.1 stt.ifdrecord pd hpd hdR hrS
      (fun e he2 => DefEnt_mono (hdefR e he2) (le_of_eq hLeq.symm) (le_refl _))
    have hrdwT : rdw.1.ifdSide.tell = rdw.1.ifdSide.len := by
      rw [hTeq, hLeq]
      exact heS
    obtain ⟨hdQ, hlePQ, hlQ⟩ := pad_after_patch pd.1 hdP
      (le_trans (le_of_eq (htP.trans hrdwT)) hlP)
      (by
        rcases hdisjP with hdp | hdp
        · exact Or.inl (by rw [hdp, ← hrdwT, ← htP])
        · exact Or.inr hdp)
    obtain ⟨hoR, hpsR⟩ := writeSubTags_inv (fun i => WFb n i = true)
      (fun a b c => write_ifd be bigtiff true n a b c) ih _ hptrlen ifd.tags
      dp.tellI hipos htag stt.subifdPtrs _ rst hst hsS
      (final_chain_IOk _ _ _ _ _ _ hdQ hlQ (by rw [packVal_length]; omega)
        (by omega) (by rw [packVal_length]; omega))
    refine ⟨hoR, ?_, ?_⟩
    · rw [chain_tellI]
      show (dp.tellI + pd.2.length) % 2 = 0
      omega
    · intro p hp
      rcases List.mem_cons.mp hp with rfl | hp
      · exact hipos
      · exact hpsR p hp

theorem Buf.write_empty (bs : List Nat) : Buf.write ⟨[], 0⟩ bs = ⟨bs, bs.length⟩ := by
  simp [Buf.write]

theorem tiffHeader_length (be bigtiff : Bool) :
    (tiffHeader be bigtiff).length = if bigtiff = true then 16 else 8 := by
  cases be <;> cases bigtiff <;> simp [tiffHeader, packVal_length]

theorem write_tiff_once_pos (be bigtiff ifdsFirst : Bool) (fuel : Nat) (ifds : List Ifd)
    (w : WOut) (h : write_tiff_once be bigtiff ifdsFirst fuel ifds = .ok w)
    (hwf : ∀ i ∈ ifds, WFb fuel i = true) :
    ∀ p ∈ w.positions, p % 2 = 0 := by
  simp only [write_tiff_once] at h
  by_cases hif : ifdsFirst = false
  · rw [if_pos hif] at h
    obtain ⟨r, hloop, h⟩ := bind_ok h
    cases hs : r.1.ifdSide with
    | buf b =>
      rw [hs] at h
      cases Except.ok.inj h
      intro p hp
      exact writeIfdLoop_pos _
        (fun a b2 c rr hh => write_ifd_pos be bigtiff fuel a b2 c rr hh)
        ifds _ _ r hloop p hp
    | trk t =>
      rw [hs] at h
      exact Except.noConfusion h
  · rw [if_neg hif] at h
    obtain ⟨r1, h1, h⟩ := bind_ok h
    obtain ⟨r2, h2, h⟩ := bind_ok h
    obtain ⟨r3, h3, h⟩ := bind_ok h
    cases hs : r3.1.dataSide with
    | trk t =>
      rw [hs] at h
      exact Except.noConfusion h
    | buf b =>
      rw [hs] at h
      cases Except.ok.inj h
      intro p hp
      obtain ⟨hok2, hpos2⟩ := writeIfdLoop_inv (fun i => WFb fuel i = true) _
        (write_ifd_inv be bigtiff fuel) ifds _ _ r2 h2 hwf
        ⟨trivial, by
          show (Buf.write ⟨[], 0⟩ (tiffHeader be bigtiff)).pos =
            (Buf.write ⟨[], 0⟩ (tiffHeader be bigtiff)).data.length
          rw [Buf.write_empty], by
          show (Buf.write ⟨[], 0⟩ (tiffHeader be bigtiff)).data.length % 2 = 0
          rw [Buf.write_empty]
          show (tiffHeader be bigtiff).length % 2 = 0
          rw [tiffHeader_length]
          cases bigtiff <;> rfl⟩
        (by
          rw [tiffHeader_length]
          cases bigtiff <;> rfl)
      exact hpos2 p hp

/-- C7: every directory record written by write_tiff begins at an even
byte offset, in the default and the IFDs-first layout, classic or
BigTIFF, for every dictionary-backed (unique tag ids at every level, as
Python dict keys are) list of IFDs.  In the default layout each record
position is taken after an explicit one-byte pad to an even position; in
the IFDs-first layout the record position is the current end of the IFD
destination, whose length the writer keeps word-aligned. -/
theorem C7_ifd_positions_even (be bigtiff ifdsFirst : Bool) (fuel : Nat) (ifds : List Ifd)
    (w : WOut) (h : write_tiff be bigtiff ifdsFirst fuel ifds = .ok w)
    (hwf : ∀ i ∈ ifds, WFb fuel i = true) :
    ∀ p ∈ w.positions, p % 2 = 0 := by
  rw [write_tiff] at h
  cases ho : write_tiff_once be bigtiff ifdsFirst fuel ifds with
  | ok w2 =>
    rw [ho] at h
    cases Except.ok.inj h
    exact write_tiff_once_pos be bigtiff ifdsFirst fuel ifds _ ho hwf
  | error e =>
    rw [ho] at h
    cases e with
    | mustBeBigTiff => exact write_tiff_once_pos be true ifdsFirst fuel ifds w h hwf
    | otherError => exact Except.noConfusion h
    | fuelExhausted => exact Except.noConfusion h

/-- Witness for C7: a concrete one-tag classic write succeeds and every
returned directory position is even. -/
theorem C7_ifd_positions_even_witness :
    ∃ w, write_tiff false false false 2 [ifdShortEx] = Except.ok w ∧
      ∀ p ∈ w.positions, p % 2 = 0 :=
  ⟨_, rfl, C7_ifd_positions_even false false false 2 [ifdShortEx] _ rfl (by decide)⟩

end Tifftools
